import Mathlib

/-!
# Verification of the `vx` component-tree core

Shallow embedding of `src/core.rs` (the arena, the lifecycle engine and the
signal/listener subsystem) and `src/signal.rs` (the raw `Signal` type).

Modelling choices, all taken from the source:

* `HashMap<u64, _>` tables become association lists `List (Nat × α)` with
  unique keys; `insert` is in-place update-or-append (`aset`), `remove` is
  `aremove`.  Machine `u64` identifiers become `Nat`; the counters only grow,
  so wrap-around never occurs along any modelled execution.
* A component payload is `Some`/`None` in the source (`Option<T>`); the model
  keeps a `taken : Bool` flag on the node (`true` = payload absent, i.e. the
  take/replace exclusive-access window is open).  The component's `unmount`
  and `update` hooks travel with the node as programs of the small command
  language `Cmd`, which covers exactly what user hooks may do in the claims'
  scenarios (nothing, sequencing, emitting a signal, unmounting a node,
  probing the arena).
* Rust panics (`expect`, `unwrap`) and fuel exhaustion are `none` in the
  `Option Globals` result of the interpreter `step`; every operation of
  `Globals` in the source is one constructor of `Op`.
* `Signal::emit` iterates `self.listeners.values_mut()` on a `HashMap`,
  whose iteration order is unspecified.  The main interpreter iterates the
  listener list in insertion order, which is one admissible order; the
  order-sensitive claim about `emit` is analysed separately in the
  `SignalM` section where the iteration order is an explicit parameter.
* The interpreter appends observable events to a ghost `log` field; the
  temporal claims (hook ordering, removal ordering) are statements about
  this log.  At every unmount-hook invocation the interpreter also records,
  in an `obs` event, the values of `is_valid` for the node's parent and
  children at that instant.
-/

namespace Vx

/-! ## Association-list primitives (model of `HashMap<u64, _>`) -/

def alookup (k : Nat) : List (Nat × α) → Option α
  | [] => none
  | (k', v) :: rest => if k' = k then some v else alookup k rest

/-- `HashMap::insert`: replace in place if the key exists, else add. -/
def aset (k : Nat) (v : α) : List (Nat × α) → List (Nat × α)
  | [] => [(k, v)]
  | (k', v') :: rest => if k' = k then (k, v) :: rest else (k', v') :: aset k v rest

/-- `HashMap::remove` (keys are unique, so dropping every pair with the key
is the same as dropping the one entry). -/
def aremove (k : Nat) (m : List (Nat × α)) : List (Nat × α) :=
  m.filter (fun p => p.1 ≠ k)

theorem alookup_aset_self (k : Nat) (v : α) (m : List (Nat × α)) :
    alookup k (aset k v m) = some v := by
  induction m with
  | nil => simp [aset, alookup]
  | cons p rest ih =>
    by_cases h : p.1 = k
    · simp [aset, alookup, h]
    · simp [aset, alookup, h, ih]

theorem alookup_aset_of_ne (k j : Nat) (v : α) (m : List (Nat × α)) (h : j ≠ k) :
    alookup j (aset k v m) = alookup j m := by
  induction m with
  | nil => simp [aset, alookup, Ne.symm h]
  | cons p rest ih =>
    by_cases hk : p.1 = k
    · by_cases hj : p.1 = j
      · exact absurd (hj.symm.trans hk) h
      · simp [aset, alookup, hk, hj, Ne.symm h]
    · by_cases hj : p.1 = j <;> simp [aset, alookup, hk, hj, h, ih]

theorem alookup_aremove_self (k : Nat) (m : List (Nat × α)) :
    alookup k (aremove k m) = none := by
  induction m with
  | nil => simp [aremove, alookup]
  | cons p rest ih =>
    by_cases h : p.1 = k
    · simpa [aremove, alookup, h] using ih
    · simpa [aremove, alookup, h] using ih

theorem alookup_aremove_of_ne (k j : Nat) (m : List (Nat × α)) (h : j ≠ k) :
    alookup j (aremove k m) = alookup j m := by
  induction m with
  | nil => simp [aremove, alookup]
  | cons p rest ih =>
    by_cases hk : p.1 = k
    · have hj : ¬ p.1 = j := fun hh => h (hh.symm.trans hk)
      simp only [aremove] at ih ⊢
      simpa [alookup, hk, hj, Ne.symm h] using ih
    · by_cases hj : p.1 = j
      · simp [aremove, alookup, hk, hj, h]
      · simp only [aremove] at ih ⊢
        simpa [alookup, hk, hj] using ih

/-! ## Data model (from `src/core.rs`) -/

/-- Command language for user code run by the engine: component hooks
(`Component::unmount`, `Component::update`), component factories
(`ComponentFactory::new`) and signal listener callbacks. -/
inductive Cmd where
  | nop : Cmd
  | seq (a b : Cmd) : Cmd
  | emitC (sref : Nat) : Cmd
  | unmountC (cref : Nat) : Cmd
  | probe (cref : Nat) : Cmd
deriving DecidableEq, Repr

/-- `ListenerPair { listener: signal::ListenerRef, signal: u64 }`. -/
structure ListenerPair where
  listener : Nat
  signal : Nat
deriving DecidableEq, Repr

/-- `ComponentNode<T>`: `parent`, `children`, `component: Option<T>`
(`taken = component.is_none()`), `listeners`, and the repaint state of the
`cmds: CommandGroup` field.  `ty` stands for `TypeId::of::<T>()`; the hook
fields are the behaviour of the stored component value. -/
structure Node where
  parent : Nat
  children : List Nat
  taken : Bool
  listeners : List ListenerPair
  ty : Nat
  unmountHook : Cmd
  updateHook : Cmd
  repaintFlag : Bool
deriving DecidableEq, Repr

/-- One entry of `signal_map`: the listener table of a `Signal<T>`
(`listeners: HashMap<u64, callback>`, kept here in insertion order) plus its
`next_id` counter. -/
structure SignalObj where
  listeners : List (Nat × Cmd)
  next_id : Nat
deriving DecidableEq, Repr

/-- Ghost events recorded by the interpreter. `obs i pv cv` is logged at the
instant node `i`'s unmount hook is invoked, with `pv`/`cv` the values of
`is_valid` for `i`'s parent / all of `i`'s children at that instant. -/
inductive Event where
  | obs (i : Nat) (parentValid childrenValid : Bool) : Event
  | hook (i : Nat) : Event
  | removed (i : Nat) : Event
  | upd (i : Nat) : Event
  | call (sref lid : Nat) : Event
  | probeEv (i : Nat) (valid avail : Bool) : Event
deriving DecidableEq, Repr

/-- `Globals`.  `lateAcc` models the local `Vec<u64>` accumulator `v` of
`late_unmount`; `log` is the ghost event log (not part of the Rust state). -/
structure Globals where
  map : List (Nat × Node)
  signal_map : List (Nat × Option SignalObj)
  listener_removal : List Nat
  next_component_id : Nat
  next_signal_id : Nat
  lateAcc : List Nat
  log : List Event
deriving DecidableEq, Repr

/-! ## Arena queries (from `Globals`) -/

/-- `Globals::is_valid`. -/
def is_valid (s : Globals) (i : Nat) : Bool :=
  (alookup i s.map).isSome

/-- `Globals::is_available`:
`map.get(..).and_then(|x| Some(!x.is_taken())).unwrap_or(false)`. -/
def is_available (s : Globals) (i : Nat) : Bool :=
  match alookup i s.map with
  | some n => !n.taken
  | none => false

/-- The three panic classes of the typed accessors: `expect("invalid
reference")`, `expect("mismatching reference type")`, `expect("a reference to
the component is already being used")`. -/
inductive AccessError where
  | invalidRef : AccessError
  | mismatch : AccessError
  | taken : AccessError
deriving DecidableEq, Repr

/-- `Globals::get::<T>`: `self.node(cref)` (map lookup, then downcast), then
`.component.as_ref().expect(..)`.  A `.error` value is a panic. -/
def get (s : Globals) (ty i : Nat) : Except AccessError Unit :=
  match alookup i s.map with
  | none => .error .invalidRef
  | some n =>
    if n.ty = ty then
      if n.taken then .error .taken else .ok ()
    else .error .mismatch

/-- `Globals::get_mut::<T>` (same lookup chain as `get`, through
`node_mut`). -/
def get_mut (s : Globals) (ty i : Nat) : Except AccessError Unit :=
  match alookup i s.map with
  | none => .error .invalidRef
  | some n =>
    if n.ty = ty then
      if n.taken then .error .taken else .ok ()
    else .error .mismatch

/-- `Globals::try_get::<T>`: `self.try_node(cref)?.component.as_ref()`. -/
def try_get (s : Globals) (ty i : Nat) : Option Unit :=
  match alookup i s.map with
  | none => none
  | some n =>
    if n.ty = ty then
      if n.taken then none else some ()
    else none

/-- `Globals::try_get_mut::<T>`. -/
def try_get_mut (s : Globals) (ty i : Nat) : Option Unit :=
  match alookup i s.map with
  | none => none
  | some n =>
    if n.ty = ty then
      if n.taken then none else some ()
    else none

/-- `SignalRef::null()` is `SignalRef(std::u64::MAX, ..)`. -/
def nullSignalRef : Nat := 2 ^ 64 - 1

/-! ## State helpers used by the interpreter -/

/-- `ListenerPair::detach`: look the signal up in `signal_map`
(`.unwrap()` panics if the key is absent); if the slot holds the signal,
remove the listener from it, otherwise (signal mid-emission) queue the
listener ref on `listener_removal`. -/
def detachPair (p : ListenerPair) (s : Globals) : Option Globals :=
  match alookup p.signal s.signal_map with
  | none => none
  | some none => some { s with listener_removal := s.listener_removal ++ [p.listener] }
  | some (some sig) =>
    let sig' : SignalObj := { sig with listeners := aremove p.listener sig.listeners }
    some { s with signal_map := aset p.signal (some sig') s.signal_map }

/-- `ComponentNode::detach_listeners`: detach each pair in order. -/
def detachListeners : List ListenerPair → Globals → Option Globals
  | [], s => some s
  | p :: ps, s => (detachPair p s).bind (detachListeners ps)

/-- `self.untyped_internal_node_mut(cref).take()`: panic if the reference is
invalid (`expect`) or the payload is already taken (`Option::take().unwrap()`
inside `ComponentNode::take`).  Returns the node (carrying the component's
hooks) and the state with the payload marked absent. -/
def takeNode (i : Nat) (s : Globals) : Option (Node × Globals) :=
  match alookup i s.map with
  | none => none
  | some n =>
    if n.taken then none
    else some (n, { s with map := aset i ({ n with taken := true }) s.map })

/-- `self.untyped_internal_node_mut(cref).replace(component)`: panic if the
node is gone, else the payload is back in place. -/
def replaceNode (i : Nat) (s : Globals) : Option Globals :=
  match alookup i s.map with
  | none => none
  | some n => some { s with map := aset i ({ n with taken := false }) s.map }

/-- `if let Some(mut node) = self.map.remove(&id) { node.detach_listeners(self) }` -/
def removeAndDetach (i : Nat) (s : Globals) : Option Globals :=
  match alookup i s.map with
  | none => some s
  | some n =>
    detachListeners n.listeners
      { s with map := aremove i s.map, log := s.log ++ [Event.removed i] }

/-- The observation recorded at an unmount-hook invocation: `is_valid` of the
node's parent and of each of its children at that instant. -/
def obsEvent (s : Globals) (n : Node) (i : Nat) : Event :=
  Event.obs i (is_valid s n.parent) (n.children.all (is_valid s))

/-- `Repaint` (source enum). -/
inductive Repaint where
  | yes : Repaint
  | no : Repaint
deriving DecidableEq, Repr

/-- `Propagate` (source enum). -/
inductive Propagate where
  | yes : Propagate
  | no : Propagate
deriving DecidableEq, Repr

/-! ## The lifecycle interpreter -/

/-- The operations of `Globals` with internal loop states (snapshot lists
being iterated) made explicit so that the whole engine is one fueled
function. -/
inductive Op where
  | cmd (c : Cmd) : Op
  | emitOp (sref : Nat) : Op
  | callList (sref : Nat) (ls : List (Nat × Cmd)) : Op
  | unmountOp (cref : Nat) : Op
  | reverseUnmountOp (cref : Nat) : Op
  | lateUnmountOp (cref : Nat) : Op
  | unmountSingle (cref : Nat) : Op
  | unmountChildren (reverse : Bool) (cref : Nat) : Op
  | childLoop (reverse : Bool) (cs : List Nat) : Op
  | lateImpl (cref : Nat) : Op
  | lateImplList (cs : List Nat) : Op
  | updateOp (cref : Nat) (rp : Repaint) (pr : Propagate) : Op
  | updateList (cs : List Nat) (rp : Repaint) (pr : Propagate) : Op
  | childOp (pcref ty : Nat) (factory uh uph : Cmd) : Op
deriving Repr

/-- Pass 2 of `Globals::late_unmount`: `for id in v { if let Some(mut node) =
self.map.remove(&id) { node.detach_listeners(self) } }`. -/
def lateRemoveList : List Nat → Globals → Option Globals
  | [], s => some s
  | i :: is', s => (removeAndDetach i s).bind (lateRemoveList is')

/-- One fueled interpreter for every `Globals` operation of `src/core.rs`.
`none` is a Rust panic or fuel exhaustion. -/
def step : Nat → Op → Globals → Option Globals
  | 0, _, _ => none
  | fuel + 1, op, s =>
    match op with
    | .cmd .nop => some s
    | .cmd (.seq a b) => (step fuel (.cmd a) s).bind (step fuel (.cmd b))
    | .cmd (.emitC sref) => step fuel (.emitOp sref) s
    | .cmd (.unmountC cref) => step fuel (.unmountOp cref) s
    | .cmd (.probe i) =>
      some { s with log := s.log ++ [Event.probeEv i (is_valid s i) (is_available s i)] }
    -- `Globals::emit`: take the signal out of its slot (no-op if the key is
    -- absent or the slot already holds `None`), run the listeners, drain the
    -- `listener_removal` queue onto this signal, put the signal back.
    | .emitOp sref =>
      match alookup sref s.signal_map with
      | none => some s
      | some none => some s
      | some (some sig) =>
        let s1 := { s with signal_map := aset sref none s.signal_map }
        (step fuel (.callList sref sig.listeners) s1).bind (fun s2 =>
          let sig' := s2.listener_removal.foldl
            (fun g l => { g with listeners := aremove l g.listeners }) sig
          match alookup sref s2.signal_map with
          | none => none
          | some _ =>
            some { s2 with listener_removal := [],
                           signal_map := aset sref (some sig') s2.signal_map })
    -- `Signal::emit`'s loop over the listener callbacks.
    | .callList _ [] => some s
    | .callList sref ((lid, c) :: rest) =>
      let s1 := { s with log := s.log ++ [Event.call sref lid] }
      (step fuel (.cmd c) s1).bind (step fuel (.callList sref rest))
    -- `Globals::unmount`.
    | .unmountOp cref =>
      (step fuel (.unmountSingle cref) s).bind (step fuel (.unmountChildren false cref))
    -- `Globals::reverse_unmount`.
    | .reverseUnmountOp cref =>
      (step fuel (.unmountChildren true cref) s).bind (step fuel (.unmountSingle cref))
    -- `Globals::unmount_single`: take, hook, replace, remove + detach.
    | .unmountSingle cref =>
      match takeNode cref s with
      | none => none
      | some (n, s1) =>
        let s2 := { s1 with log := s1.log ++ [obsEvent s1 n cref, Event.hook cref] }
        (step fuel (.cmd n.unmountHook) s2).bind (fun s3 =>
          (replaceNode cref s3).bind (removeAndDetach cref))
    -- `Globals::unmount_children`: early return if the node is gone, else
    -- iterate a snapshot of its child list.
    | .unmountChildren reverse cref =>
      match alookup cref s.map with
      | none => some s
      | some n => step fuel (.childLoop reverse n.children) s
    | .childLoop _ [] => some s
    | .childLoop reverse (c :: cs) =>
      (if (alookup c s.map).isSome then
        step fuel (if reverse then .reverseUnmountOp c else .unmountOp c) s
      else some s).bind (step fuel (.childLoop reverse cs))
    -- `Globals::late_unmount`: fresh local accumulator, pass 1, then pass 2;
    -- the accumulator is local to the call, hence saved and restored.
    | .lateUnmountOp cref =>
      (step fuel (.lateImpl cref) { s with lateAcc := [] }).bind (fun s1 =>
        (lateRemoveList s1.lateAcc { s1 with lateAcc := [] }).bind (fun s2 =>
          some { s2 with lateAcc := s.lateAcc }))
    -- `Globals::late_unmount_impl`: record the id, take, hook, replace,
    -- recurse over a snapshot of the children.
    | .lateImpl cref =>
      let s0 := { s with lateAcc := s.lateAcc ++ [cref] }
      match takeNode cref s0 with
      | none => none
      | some (n, s1) =>
        let s2 := { s1 with log := s1.log ++ [obsEvent s1 n cref, Event.hook cref] }
        (step fuel (.cmd n.unmountHook) s2).bind (fun s3 =>
          (replaceNode cref s3).bind (fun s4 =>
            match alookup cref s4.map with
            | none => none
            | some n4 => step fuel (.lateImplList n4.children) s4))
    | .lateImplList [] => some s
    | .lateImplList (c :: cs) =>
      (step fuel (.lateImpl c) s).bind (step fuel (.lateImplList cs))
    -- `Globals::update`: take, hook, replace; then repaint marking and
    -- propagation over a snapshot of the children.
    | .updateOp cref rp pr =>
      match takeNode cref s with
      | none => none
      | some (n, s1) =>
        let s2 := { s1 with log := s1.log ++ [Event.upd cref] }
        (step fuel (.cmd n.updateHook) s2).bind (fun s3 =>
          (replaceNode cref s3).bind (fun s4 =>
            match alookup cref s4.map with
            | none => none
            | some n4 =>
              let s5 := if rp = Repaint.yes then
                  { s4 with map := aset cref ({ n4 with repaintFlag := true }) s4.map }
                else s4
              if pr = Propagate.yes then step fuel (.updateList n4.children rp pr) s5
              else some s5))
    | .updateList [] _ _ => some s
    | .updateList (c :: cs) rp pr =>
      (step fuel (.updateOp c rp pr) s).bind (step fuel (.updateList cs rp pr))
    -- `Globals::child`: allocate the id, append it to the parent's child
    -- list (panic if the parent is invalid), insert the payload-less node,
    -- run the factory, then store the payload (panic if the node is gone or
    -- its type disagrees).
    | .childOp pcref ty factory uh uph =>
      let cref := s.next_component_id
      match alookup pcref s.map with
      | none => none
      | some pn =>
        let s1 := { s with
          next_component_id := s.next_component_id + 1,
          map := aset pcref ({ pn with children := pn.children ++ [cref] }) s.map }
        let fresh : Node :=
          { parent := pcref, children := [], taken := true, listeners := [],
            ty := ty, unmountHook := uh, updateHook := uph, repaintFlag := false }
        let s2 := { s1 with map := aset cref fresh s1.map }
        (step fuel (.cmd factory) s2).bind (fun s3 =>
          match alookup cref s3.map with
          | none => none
          | some n3 =>
            if n3.ty = ty then
              some { s3 with map := aset cref ({ n3 with taken := false }) s3.map }
            else none)

/-- `Globals::listen`: register the callback on the signal (panic if the
signal ref is invalid or the signal is mid-emission), then push the
`ListenerPair` onto the owning node (panic if the owner is invalid or of the
wrong type). -/
def listenOp (sref cref ty : Nat) (callback : Cmd) (s : Globals) : Option Globals :=
  match alookup sref s.signal_map with
  | none => none
  | some none => none
  | some (some sig) =>
    let lid := sig.next_id
    let sig' : SignalObj :=
      { listeners := sig.listeners ++ [(lid, callback)], next_id := sig.next_id + 1 }
    match alookup cref s.map with
    | none => none
    | some n =>
      if n.ty = ty then
        some { s with
          signal_map := aset sref (some sig') s.signal_map,
          map := aset cref ({ n with listeners := n.listeners ++ [⟨lid, sref⟩] }) s.map }
      else none

/-- `Globals::signal`. -/
def signalOp (s : Globals) : Globals × Nat :=
  let sref := s.next_signal_id
  ({ s with next_signal_id := s.next_signal_id + 1,
            signal_map := aset sref (some { listeners := [], next_id := 0 }) s.signal_map },
   sref)

/-! ## Concrete arenas used by the scenario theorems -/

/-- A passive node: inert hooks, no listeners. -/
def passiveNode (parent : Nat) (children : List Nat) : Node :=
  { parent := parent, children := children, taken := false, listeners := [],
    ty := 0, unmountHook := .nop, updateHook := .nop, repaintFlag := false }

/-- Arena with a root component `0` (its own parent, as produced by
`Globals::new`) and one child `1`. -/
def twoNodeArena : Globals :=
  { map := [(0, passiveNode 0 [1]), (1, passiveNode 0 [])],
    signal_map := [], listener_removal := [],
    next_component_id := 2, next_signal_id := 0, lateAcc := [], log := [] }

/-- Arena for the re-entrant-access scenario: a single component `1` whose
`update` hook emits signal `0`; the signal's sole listener probes component
`1` (recording `is_valid` and `is_available` for it) from inside the nested
emission. -/
def reentrantArena : Globals :=
  { map := [(1, { parent := 1, children := [], taken := false, listeners := [],
                  ty := 3, unmountHook := .nop, updateHook := .emitC 0,
                  repaintFlag := false })],
    signal_map := [(0, some { listeners := [(0, .probe 1)], next_id := 1 })],
    listener_removal := [], next_component_id := 2, next_signal_id := 1,
    lateAcc := [], log := [] }

/-- Arena for the nested-emission unmount scenario: component `1` owns a
managed listener (`ListenerPair` with listener id `0` on signal `0`); signal
`0` has that managed listener (`.nop`) plus a listener that emits signal `1`;
signal `1` has a listener that unmounts component `1`. -/
def nestedEmitArena : Globals :=
  { map := [(1, { parent := 1, children := [], taken := false,
                  listeners := [⟨0, 0⟩], ty := 0,
                  unmountHook := .nop, updateHook := .nop, repaintFlag := false })],
    signal_map := [(0, some { listeners := [(0, .nop), (1, .emitC 1)], next_id := 2 }),
                   (1, some { listeners := [(0, .unmountC 1)], next_id := 1 })],
    listener_removal := [], next_component_id := 2, next_signal_id := 2,
    lateAcc := [], log := [] }

/-- Arena for the re-entrant-emit scenario: signal `0`'s sole listener emits
signal `0` again. -/
def selfEmitArena : Globals :=
  { map := [], signal_map := [(0, some { listeners := [(0, .emitC 0)], next_id := 1 })],
    listener_removal := [], next_component_id := 0, next_signal_id := 1,
    lateAcc := [], log := [] }

/-! ## C1 / C2: `Globals::unmount` never reaches the descendants

`unmount` first runs `unmount_single`, which removes the node from the map;
the subsequent `unmount_children` call begins with
`if !self.map.contains_key(&cref.id()) { return; }` and therefore returns at
once.  So `unmount(N)` removes exactly `N`, contradicting its own
documentation ("Unmounts and removes a component node (and it's children).")
and the documentation of `Component::unmount` (children are unmounted with
the parent already gone). -/

/-- C1: the claim says `unmount(N)` removes `N` and every descendant and
`is_valid` becomes false for all of them.  On the two-node arena,
`unmount(0)` leaves the child `1` in the arena: `is_valid` stays true for
the descendant.  The claim fails on the code (code bug: the early-return in
`unmount_children` fires because `unmount_single` already removed the
node). -/
theorem c1_unmount_leaves_descendant_valid :
    (step 20 (.unmountOp 0) twoNodeArena).map
        (fun s => (is_valid s 0, is_valid s 1)) = some (false, true) := by
  rfl

/-- C2: the claim says the unmount hooks of the whole subtree fire in
pre-order during `unmount(N)`.  On the two-node arena the recorded log of
`unmount(0)` contains the root's hook only — the child's unmount hook is
never invoked, so no traversal of the subtree's hooks happens at all (same
code bug as C1). -/
theorem c2_unmount_fires_no_descendant_hooks :
    (step 20 (.unmountOp 0) twoNodeArena).map Globals.log =
      some [Event.obs 0 true true, Event.hook 0, Event.removed 0] := by
  rfl

/-! ## C3: dangling child references -/

/-- C3 counterexample: `unmount(1)` on the two-node arena removes node `1`
from the map but leaves the reference `1` inside node `0`'s `children`
list, observable through the public API (`node(0).children()` contains `1`
while `is_valid(1)` is false).  No unmount variant ever erases the unmounted
node from its former parent's child list. -/
theorem c3_dangling_child_after_unmount :
    (step 20 (.unmountOp 1) twoNodeArena).map
        (fun s => ((alookup 0 s.map).map Node.children, is_valid s 1)) =
      some (some [1], false) := by
  rfl

/-! ## C7: access to a taken payload fails, also from nested emissions -/

/-- C7: while a node's payload is taken (its own update/unmount hook is on
the stack), `get`/`get_mut` fail with the panic-class error, `try_get` /
`try_get_mut` return `none` and `is_available` is false — for any state and
node in that condition; and concretely, when the re-entrant access happens
from a nested signal emission triggered by the node's own update hook, the
probe performed by the listener observes `is_valid = true`,
`is_available = false` for the node whose hook is running. -/
theorem c7_taken_payload_access_fails :
    (∀ (s : Globals) (i : Nat) (n : Node), alookup i s.map = some n → n.taken = true →
      get s n.ty i = .error .taken ∧ get_mut s n.ty i = .error .taken ∧
      try_get s n.ty i = none ∧ try_get_mut s n.ty i = none ∧
      is_available s i = false) ∧
    (step 30 (.updateOp 1 .yes .no) reentrantArena).map Globals.log =
      some [Event.upd 1, Event.call 0 0, Event.probeEv 1 true false] := by
  constructor
  · intro s i n h ht
    refine ⟨?_, ?_, ?_, ?_, ?_⟩ <;> simp [get, get_mut, try_get, try_get_mut, is_available, h, ht]
  · rfl

/-- The mid-take state reached while `reentrantArena`'s node `1` runs its
update hook: the payload of `1` is absent. -/
def takenArena : Globals :=
  { reentrantArena with
    map := [(1, { parent := 1, children := [], taken := true, listeners := [],
                  ty := 3, unmountHook := .nop, updateHook := .emitC 0,
                  repaintFlag := false })] }

/-- C7 witness: the universally quantified part applied to the concrete
mid-take state `takenArena`. -/
theorem c7_witness :
    get takenArena 3 1 = .error .taken ∧ try_get takenArena 3 1 = none ∧
    is_available takenArena 1 = false := by
  obtain ⟨h1, h2, h3, h4, h5⟩ :=
    c7_taken_payload_access_fails.1 takenArena 1
      { parent := 1, children := [], taken := true, listeners := [], ty := 3,
        unmountHook := .nop, updateHook := .emitC 0, repaintFlag := false } rfl rfl
  exact ⟨h1, h3, h5⟩

/-! ## C8: managed listener outlives its owner across nested emissions -/

/-- C8: the claim says a managed listener is never invocable after its owner
is removed by an unmount variant.  Counter-run on `nestedEmitArena`: during
an emission of signal `0`, a listener emits signal `1`, whose listener
unmounts the owner `1`.  The detach is queued on the global
`listener_removal` queue (signal `0` is mid-emission) — but the queue is
drained by the innermost completing emission, so the detach is applied to
signal `1` (removing an unrelated listener) and signal `0` keeps the managed
listener.  A second `emit` of signal `0` invokes the managed callback again
(`Event.call 0 0` is logged once per emission, hence count 2), even though
the owner was removed during the first emission. -/
theorem c8_managed_listener_invoked_after_owner_removed :
    (step 50 (.emitOp 0) nestedEmitArena).map
        (fun s => (is_valid s 1, alookup 0 s.signal_map, alookup 1 s.signal_map)) =
      some (false,
        some (some { listeners := [(0, .nop), (1, .emitC 1)], next_id := 2 }),
        some (some { listeners := [], next_id := 1 })) ∧
    ((step 50 (.emitOp 0) nestedEmitArena).bind (step 50 (.emitOp 0))).map
        (fun s => s.log.count (Event.call 0 0)) = some 2 := by
  exact ⟨rfl, rfl⟩

/-! ## C10: emit on a taken or absent signal slot is a silent no-op -/

/-- C10: `Globals::emit` on a signal reference whose key is absent from
`signal_map` (e.g. the null `SignalRef`, `u64::MAX`) or whose slot holds
`None` (the signal is mid-emission) returns the state unchanged: no
callbacks run, nothing is logged, no error occurs, the listener table is
untouched.  The concrete conjuncts run the re-entrant scenario (a listener
of signal `0` emits signal `0` again: exactly one invocation happens and the
listener table survives unchanged) and an emit on the null reference. -/
theorem c10_emit_reentrant_or_absent_is_noop :
    (∀ (s : Globals) (sref fuel : Nat),
      alookup sref s.signal_map = none ∨ alookup sref s.signal_map = some none →
      step (fuel + 1) (.emitOp sref) s = some s) ∧
    (step 30 (.emitOp 0) selfEmitArena).map
        (fun s => (s.log, alookup 0 s.signal_map)) =
      some ([Event.call 0 0], some (some { listeners := [(0, .emitC 0)], next_id := 1 })) ∧
    step 30 (.emitOp nullSignalRef) selfEmitArena = some selfEmitArena := by
  refine ⟨?_, rfl, rfl⟩
  intro s sref fuel h
  rcases h with h | h <;> simp [step, h]

/-- C10 witness: the no-op part applied to the concrete `selfEmitArena` and
the null signal reference, whose key is absent from the signal table. -/
theorem c10_witness :
    alookup nullSignalRef selfEmitArena.signal_map = none ∧
    step 8 (.emitOp nullSignalRef) selfEmitArena = some selfEmitArena := by
  exact ⟨rfl, (c10_emit_reentrant_or_absent_is_noop.1 selfEmitArena nullSignalRef 7 (Or.inl rfl))⟩

/-! ## C4: `Signal::emit` and listener order (model of `src/signal.rs`)

`Signal<T>` stores its listeners in `listeners: HashMap<u64, callback>` and
`emit` iterates `self.listeners.values_mut()`.  A `HashMap`'s iteration
order is unspecified, so it is a parameter here: any permutation of the
stored keys is an admissible iteration order.  Callbacks are opaque and
identified by a `Nat`. -/

namespace SignalM

/-- `Signal<T>`: the listener table (association list in insertion order,
standing for the `HashMap` entries) and the `next_id` counter. -/
structure Signal where
  listeners : List (Nat × Nat)
  next_id : Nat
deriving DecidableEq, Repr

/-- `Signal::new`. -/
def new : Signal := { listeners := [], next_id := 0 }

/-- `Signal::listen_rc`: allocate the next id, insert the callback, return
the `ListenerRef`. -/
def listen_rc (sig : Signal) (cb : Nat) : Signal × Nat :=
  let id := sig.next_id
  ({ listeners := aset id cb sig.listeners, next_id := sig.next_id + 1 }, id)

/-- `Signal::remove_listener`. -/
def remove_listener (sig : Signal) (l : Nat) : Signal :=
  { sig with listeners := aremove l sig.listeners }

/-- The sequence of callbacks `Signal::emit` invokes when the `HashMap`
yields its entries in the key order `ord`. -/
def emitSeq (sig : Signal) (ord : List Nat) : List Nat :=
  ord.filterMap (fun k => alookup k sig.listeners)

/-- `ord` is a possible `HashMap` iteration order: a permutation of the
stored keys. -/
def admissibleOrder (sig : Signal) (ord : List Nat) : Prop :=
  ord.Perm (sig.listeners.map Prod.fst)

/-- The signal obtained by registering callback `10`, then callback `11`. -/
def sigTwo : Signal := (listen_rc (listen_rc new 10).1 11).1

theorem filterMap_alookup_fst (L : List (Nat × Nat)) (h : (L.map Prod.fst).Nodup) :
    (L.map Prod.fst).filterMap (fun k => alookup k L) = L.map Prod.snd := by
  induction L with
  | nil => rfl
  | cons p L' ih =>
    rcases p with ⟨k0, v0⟩
    simp only [List.map_cons, List.nodup_cons] at h
    obtain ⟨hk0, hnd⟩ := h
    have hcongr : (L'.map Prod.fst).filterMap (fun k => alookup k ((k0, v0) :: L'))
        = (L'.map Prod.fst).filterMap (fun k => alookup k L') := by
      apply List.filterMap_congr
      intro k hk
      have hne : ¬ k0 = k := fun hh => hk0 (hh ▸ hk)
      simp [alookup, hne]
    have hhead : alookup k0 ((k0, v0) :: L') = some v0 := by simp [alookup]
    simp only [List.map_cons, List.filterMap_cons, hhead, hcongr, ih hnd]

/-- C4 counterexample: the claim says `emit` invokes the callbacks in
registration order.  On the signal with callbacks `10` then `11`, the key
order `[1, 0]` is an admissible `HashMap` iteration order (a permutation of
the stored keys), and under it `emit` invokes `[11, 10]`, not the
registration order `[10, 11]`.  Nothing in the code constrains which
admissible order the `HashMap` yields. -/
theorem c4_counterexample :
    admissibleOrder sigTwo [1, 0] ∧
    emitSeq sigTwo [1, 0] ≠ sigTwo.listeners.map Prod.snd := by
  constructor
  · unfold admissibleOrder
    decide
  · decide

/-- C4 (amended): `emit` invokes every currently-registered callback exactly
once — the invocation sequence is a permutation of the registered callbacks
— but in the `HashMap`'s unspecified iteration order, not necessarily
registration order. -/
theorem c4_emit_invokes_each_callback_once (sig : Signal) (ord : List Nat)
    (hnd : (sig.listeners.map Prod.fst).Nodup) (hord : admissibleOrder sig ord) :
    (emitSeq sig ord).Perm (sig.listeners.map Prod.snd) := by
  have h1 : (emitSeq sig ord).Perm
      ((sig.listeners.map Prod.fst).filterMap (fun k => alookup k sig.listeners)) :=
    List.Perm.filterMap _ hord
  rw [filterMap_alookup_fst sig.listeners hnd] at h1
  exact h1

/-- C4 witness: the amended theorem applied to `sigTwo` and the admissible
order `[1, 0]`. -/
theorem c4_witness :
    (sigTwo.listeners.map Prod.fst).Nodup ∧ admissibleOrder sigTwo [1, 0] ∧
    (emitSeq sigTwo [1, 0]).Perm (sigTwo.listeners.map Prod.snd) :=
  ⟨by decide, by unfold admissibleOrder; decide,
   c4_emit_invokes_each_callback_once sigTwo [1, 0] (by decide)
     (by unfold admissibleOrder; decide)⟩

end SignalM

/-! ## Finite acyclic component trees

A `Tree` describes a finite acyclic subtree of the arena: the node's id and
the descriptions of its children, in child-list order.  `repT s p t` states
that the arena `s` realises `t`: each described node is present with its
payload in place, its `parent` field is as described, its `children` field
lists exactly the roots of the described child trees — and, since the
traversal claims presuppose hooks that do not mutate the tree (the spec
declares mutation of the tree from unmount hooks undefined), its hooks are
inert and it owns no listeners. -/

inductive Tree where
  | node : Nat → List Tree → Tree
deriving Repr

/-- The id at the root of the tree. -/
def Tree.rootId : Tree → Nat
  | .node i _ => i

/-- The roots of a list of trees (the matching arena `children` value). -/
def rootsF (cs : List Tree) : List Nat := cs.map Tree.rootId

mutual
/-- All ids of the tree, in pre-order (= visit order of the top-down
traversals). -/
def idsT : Tree → List Nat
  | .node i cs => i :: idsF cs
def idsF : List Tree → List Nat
  | [] => []
  | t :: ts => idsT t ++ idsF ts
end

mutual
/-- All ids of the tree, in post-order. -/
def postT : Tree → List Nat
  | .node i cs => postF cs ++ [i]
def postF : List Tree → List Nat
  | [] => []
  | t :: ts => postT t ++ postF ts
end

mutual
/-- All (proper ancestor, proper descendant) id pairs of the tree. -/
def descPairsT : Tree → List (Nat × Nat)
  | .node i cs => (idsF cs).map (fun d => (i, d)) ++ descPairsF cs
def descPairsF : List Tree → List (Nat × Nat)
  | [] => []
  | t :: ts => descPairsT t ++ descPairsF ts
end

mutual
/-- The arena `s` realises the passive tree `t` under expected parent `p`. -/
def repT (s : Globals) (p : Nat) : Tree → Bool
  | .node i cs =>
    match alookup i s.map with
    | none => false
    | some n =>
      !n.taken && decide (n.parent = p) && decide (n.unmountHook = Cmd.nop) &&
      decide (n.updateHook = Cmd.nop) && decide (n.listeners = []) &&
      decide (n.children = rootsF cs) && repF s i cs
def repF (s : Globals) (p : Nat) : List Tree → Bool
  | [] => true
  | t :: ts => repT s p t && repF s p ts
end

mutual
/-- Fuel sufficient to run any of the traversals over `t`. -/
def fuelT : Tree → Nat
  | .node _ cs => fuelF cs + 8
def fuelF : List Tree → Nat
  | [] => 1
  | t :: ts => fuelT t + fuelF ts + 4
end

/-! ### Log projections -/

/-- Keep only the `hook` / `removed` events of a log. -/
def isHR : Event → Bool
  | .hook _ => true
  | .removed _ => true
  | _ => false

def hrSeq (l : List Event) : List Event := l.filter isHR

mutual
/-- The `hook`/`removed` subsequence `reverse_unmount` produces on `t`:
post-order, each node removed immediately after its own hook returns. -/
def revHRT : Tree → List Event
  | .node i cs => revHRF cs ++ [Event.hook i, Event.removed i]
def revHRF : List Tree → List Event
  | [] => []
  | t :: ts => revHRT t ++ revHRF ts
end

mutual
/-- Pass 1 of `late_unmount` on `t`: pre-order, every hook observing a valid
parent and valid children, and no removals. -/
def lateLogT : Tree → List Event
  | .node i cs => Event.obs i true true :: Event.hook i :: lateLogF cs
def lateLogF : List Tree → List Event
  | [] => []
  | t :: ts => lateLogT t ++ lateLogF ts
end

/-! ### Representation facts -/

/-- Fields other than the arena and the log, which the passive traversals
leave untouched. -/
def sameAux (s s' : Globals) : Prop :=
  s'.signal_map = s.signal_map ∧ s'.listener_removal = s.listener_removal ∧
  s'.next_component_id = s.next_component_id ∧
  s'.next_signal_id = s.next_signal_id ∧ s'.lateAcc = s.lateAcc

theorem sameAux_refl (s : Globals) : sameAux s s := ⟨rfl, rfl, rfl, rfl, rfl⟩

theorem sameAux_trans {s1 s2 s3 : Globals} (h1 : sameAux s1 s2) (h2 : sameAux s2 s3) :
    sameAux s1 s3 := by
  obtain ⟨a1, b1, c1, d1, e1⟩ := h1
  obtain ⟨a2, b2, c2, d2, e2⟩ := h2
  exact ⟨a2.trans a1, b2.trans b1, c2.trans c1, d2.trans d1, e2.trans e1⟩

mutual
theorem repT_ext (s s' : Globals) (p : Nat) (t : Tree)
    (h : ∀ j ∈ idsT t, alookup j s'.map = alookup j s.map) :
    repT s' p t = repT s p t := by
  match t with
  | .node i cs =>
    have hi : alookup i s'.map = alookup i s.map := h i (by simp [idsT])
    have hcs : repF s' i cs = repF s i cs :=
      repF_ext s s' i cs (fun j hj => h j (by simp [idsT, hj]))
    simp only [repT, hi, hcs]
theorem repF_ext (s s' : Globals) (p : Nat) (cs : List Tree)
    (h : ∀ j ∈ idsF cs, alookup j s'.map = alookup j s.map) :
    repF s' p cs = repF s p cs := by
  match cs with
  | [] => rfl
  | t :: ts =>
    have h1 : repT s' p t = repT s p t :=
      repT_ext s s' p t (fun j hj => h j (by simp [idsF, hj]))
    have h2 : repF s' p ts = repF s p ts :=
      repF_ext s s' p ts (fun j hj => h j (by simp [idsF, hj]))
    simp only [repF, h1, h2]
end

theorem step_nop (f : Nat) (s : Globals) : step (f + 1) (.cmd .nop) s = some s := rfl

theorem node_untaken_eta (n : Node) (h : n.taken = false) :
    ({ n with taken := false } : Node) = n := by
  cases n
  simp_all

theorem aset_aset (k : Nat) (v w : α) (m : List (Nat × α)) :
    aset k v (aset k w m) = aset k v m := by
  induction m with
  | nil => simp [aset]
  | cons p rest ih =>
    by_cases h : p.1 = k
    · simp [aset, h]
    · simp [aset, h, ih]

theorem aset_lookup_self (k : Nat) (v : α) (m : List (Nat × α))
    (h : alookup k m = some v) : aset k v m = m := by
  induction m with
  | nil => simp [alookup] at h
  | cons p rest ih =>
    by_cases hk : p.1 = k
    · rcases p with ⟨k', v'⟩
      simp only [alookup] at h
      rw [if_pos hk] at h
      obtain rfl : v' = v := by injection h
      subst hk
      simp [aset]
    · simp only [alookup, hk] at h
      simp [aset, hk, ih h]

/-- Pointwise description of states whose arena lost exactly `ids`. -/
def removesIds (ids : List Nat) (s s' : Globals) : Prop :=
  ∀ j, alookup j s'.map = if j ∈ ids then none else alookup j s.map

/-- Destructor for `repT` at a `node`. -/
theorem repT_node {s : Globals} {p i : Nat} {cs : List Tree}
    (h : repT s p (.node i cs) = true) :
    ∃ n, alookup i s.map = some n ∧ n.taken = false ∧ n.parent = p ∧
      n.unmountHook = Cmd.nop ∧ n.updateHook = Cmd.nop ∧ n.listeners = [] ∧
      n.children = rootsF cs ∧ repF s i cs = true := by
  cases hn : alookup i s.map with
  | none => rw [repT, hn] at h; exact absurd h (by simp)
  | some n =>
    rw [repT, hn] at h
    simp only [Bool.and_eq_true, decide_eq_true_eq, Bool.not_eq_true'] at h
    obtain ⟨⟨⟨⟨⟨⟨h1, h2⟩, h3⟩, h4⟩, h5⟩, h6⟩, h7⟩ := h
    exact ⟨n, rfl, h1, h2, h3, h4, h5, h6, h7⟩

theorem repT_isSome {s : Globals} {p : Nat} {t : Tree} (h : repT s p t = true) :
    (alookup t.rootId s.map).isSome = true := by
  cases t with
  | node i cs =>
    obtain ⟨n, hn, -⟩ := repT_node h
    simp [Tree.rootId, hn]

/-! ### Unfolding equations for `step`, one per operation, with the inner
fuel left abstract so rewriting never unfolds nested interpreter calls. -/

theorem aremove_aset (k : Nat) (v : α) (m : List (Nat × α)) :
    aremove k (aset k v m) = aremove k m := by
  induction m with
  | nil => simp [aset, aremove]
  | cons p rest ih =>
    by_cases h : p.1 = k
    · simp [aset, aremove, h]
    · simpa [aset, aremove, h] using ih

theorem step_cmd_seq (f : Nat) (a b : Cmd) (s : Globals) :
    step (f + 1) (.cmd (.seq a b)) s = (step f (.cmd a) s).bind (step f (.cmd b)) := rfl

theorem step_cmd_emit (f : Nat) (x : Nat) (s : Globals) :
    step (f + 1) (.cmd (.emitC x)) s = step f (.emitOp x) s := rfl

theorem step_cmd_unmount (f : Nat) (x : Nat) (s : Globals) :
    step (f + 1) (.cmd (.unmountC x)) s = step f (.unmountOp x) s := rfl

theorem step_unmountOp (f : Nat) (c : Nat) (s : Globals) :
    step (f + 1) (.unmountOp c) s =
      (step f (.unmountSingle c) s).bind (step f (.unmountChildren false c)) := rfl

theorem step_reverseUnmountOp (f : Nat) (c : Nat) (s : Globals) :
    step (f + 1) (.reverseUnmountOp c) s =
      (step f (.unmountChildren true c) s).bind (step f (.unmountSingle c)) := rfl

theorem step_unmountSingle_some (f i : Nat) (s : Globals) (n : Node) (s1 : Globals)
    (h : takeNode i s = some (n, s1)) :
    step (f + 1) (.unmountSingle i) s =
      (step f (.cmd n.unmountHook)
          { s1 with log := s1.log ++ [obsEvent s1 n i, Event.hook i] }).bind
        (fun s3 => (replaceNode i s3).bind (removeAndDetach i)) := by
  simp only [step, h]

theorem step_unmountChildren_none (f : Nat) (r : Bool) (c : Nat) (s : Globals)
    (h : alookup c s.map = none) :
    step (f + 1) (.unmountChildren r c) s = some s := by
  simp only [step, h]

theorem step_unmountChildren_some (f : Nat) (r : Bool) (c : Nat) (s : Globals) (n : Node)
    (h : alookup c s.map = some n) :
    step (f + 1) (.unmountChildren r c) s = step f (.childLoop r n.children) s := by
  simp only [step, h]

theorem step_childLoop_nil (f : Nat) (r : Bool) (s : Globals) :
    step (f + 1) (.childLoop r []) s = some s := rfl

theorem step_childLoop_cons (f : Nat) (r : Bool) (c : Nat) (cs : List Nat) (s : Globals) :
    step (f + 1) (.childLoop r (c :: cs)) s =
      (if (alookup c s.map).isSome then
          step f (if r then .reverseUnmountOp c else .unmountOp c) s
        else some s).bind (step f (.childLoop r cs)) := rfl

theorem step_lateUnmountOp (f : Nat) (c : Nat) (s : Globals) :
    step (f + 1) (.lateUnmountOp c) s =
      (step f (.lateImpl c) { s with lateAcc := [] }).bind (fun s1 =>
        (lateRemoveList s1.lateAcc { s1 with lateAcc := [] }).bind (fun s2 =>
          some { s2 with lateAcc := s.lateAcc })) := rfl

theorem step_lateImpl_some (f i : Nat) (s : Globals) (n : Node) (s1 : Globals)
    (h : takeNode i { s with lateAcc := s.lateAcc ++ [i] } = some (n, s1)) :
    step (f + 1) (.lateImpl i) s =
      (step f (.cmd n.unmountHook)
          { s1 with log := s1.log ++ [obsEvent s1 n i, Event.hook i] }).bind
        (fun s3 => (replaceNode i s3).bind (fun s4 =>
          match alookup i s4.map with
          | none => none
          | some n4 => step f (.lateImplList n4.children) s4)) := by
  simp only [step, h]

theorem step_lateImplList_nil (f : Nat) (s : Globals) :
    step (f + 1) (.lateImplList []) s = some s := rfl

theorem step_lateImplList_cons (f : Nat) (c : Nat) (cs : List Nat) (s : Globals) :
    step (f + 1) (.lateImplList (c :: cs)) s =
      (step f (.lateImpl c) s).bind (step f (.lateImplList cs)) := rfl

theorem step_updateOp_some (f i : Nat) (rp : Repaint) (pr : Propagate) (s : Globals)
    (n : Node) (s1 : Globals) (h : takeNode i s = some (n, s1)) :
    step (f + 1) (.updateOp i rp pr) s =
      (step f (.cmd n.updateHook) { s1 with log := s1.log ++ [Event.upd i] }).bind
        (fun s3 => (replaceNode i s3).bind (fun s4 =>
          match alookup i s4.map with
          | none => none
          | some n4 =>
            let s5 := if rp = Repaint.yes then
                { s4 with map := aset i ({ n4 with repaintFlag := true }) s4.map }
              else s4
            if pr = Propagate.yes then step f (.updateList n4.children rp pr) s5
            else some s5)) := by
  simp only [step, h]

theorem step_updateList_nil (f : Nat) (rp : Repaint) (pr : Propagate) (s : Globals) :
    step (f + 1) (.updateList [] rp pr) s = some s := rfl

theorem step_updateList_cons (f : Nat) (c : Nat) (cs : List Nat) (rp : Repaint)
    (pr : Propagate) (s : Globals) :
    step (f + 1) (.updateList (c :: cs) rp pr) s =
      (step f (.updateOp c rp pr) s).bind (step f (.updateList cs rp pr)) := rfl

/-- Running `unmount_single` on a present, untaken, passive node: the node's
hook fires (preceded by its observation event), the node is removed, and the
arena is otherwise untouched. -/
theorem unmountSingle_run (i : Nat) (n : Node) (s : Globals) (f : Nat)
    (hn : alookup i s.map = some n) (ht : n.taken = false)
    (hh : n.unmountHook = Cmd.nop) (hl : n.listeners = []) (hf : 2 ≤ f) :
    ∃ ob, isHR ob = false ∧
      step f (.unmountSingle i) s =
        some { s with map := aremove i s.map,
                      log := s.log ++ [ob, Event.hook i, Event.removed i] } := by
  obtain ⟨g, rfl⟩ : ∃ g, f = g + 2 := ⟨f - 2, by omega⟩
  have htake : takeNode i s =
      some (n, { s with map := aset i ({ n with taken := true }) s.map }) := by
    simp [takeNode, hn, ht]
  refine ⟨obsEvent { s with map := aset i ({ n with taken := true }) s.map } n i, rfl, ?_⟩
  rw [step_unmountSingle_some (g + 1) i s _ _ htake, hh, step_nop, Option.some_bind]
  simp [replaceNode, alookup_aset_self, aset_aset, node_untaken_eta n ht,
        aset_lookup_self i n s.map hn, removeAndDetach, hn, hl, detachListeners,
        aremove_aset]

theorem hrSeq_append (a b : List Event) : hrSeq (a ++ b) = hrSeq a ++ hrSeq b :=
  List.filter_append a b

theorem isHR_hook (i : Nat) : isHR (Event.hook i) = true := rfl

theorem isHR_removed (i : Nat) : isHR (Event.removed i) = true := rfl

theorem hrSeq_block (ob : Event) (i : Nat) (hob : isHR ob = false) :
    hrSeq [ob, Event.hook i, Event.removed i] = [Event.hook i, Event.removed i] := by
  simp [hrSeq, List.filter_cons, hob, isHR_hook, isHR_removed]

mutual
/-- Execution of `reverse_unmount` on a realised passive tree: it succeeds,
removes exactly the tree's nodes, touches nothing else, and its
`hook`/`removed` event sequence is `revHRT t`. -/
theorem rev_run_T (t : Tree) : ∀ (p : Nat) (s : Globals) (fuel : Nat),
    repT s p t = true → (idsT t).Nodup → fuelT t ≤ fuel →
    ∃ s' d, step fuel (.reverseUnmountOp t.rootId) s = some s' ∧
      removesIds (idsT t) s s' ∧ sameAux s s' ∧
      s'.log = s.log ++ d ∧ hrSeq d = revHRT t :=
  match t with
  | .node i cs => by
    intro p s fuel hrep hnd hf
    obtain ⟨n, hn, ht, hpar, hhook, hupd, hlis, hch, hcs⟩ := repT_node hrep
    have hfc : fuelF cs + 8 ≤ fuel := by simpa [fuelT] using hf
    obtain ⟨f1, rfl⟩ : ∃ f1, fuel = f1 + 1 + 1 := ⟨fuel - 2, by omega⟩
    rw [show (Tree.node i cs).rootId = i from rfl, step_reverseUnmountOp,
        step_unmountChildren_some f1 true i s n hn, hch]
    have hnd' := List.nodup_cons.mp (show (i :: idsF cs).Nodup by simpa [idsT] using hnd)
    obtain ⟨s1, d1, hstep1, hrem1, haux1, hlog1, hhr1⟩ :=
      rev_run_F cs i s f1 hcs hnd'.2 (by omega)
    rw [hstep1, Option.some_bind]
    have hn1 : alookup i s1.map = some n := by
      have h := hrem1 i
      rw [if_neg hnd'.1] at h
      rw [h, hn]
    obtain ⟨ob, hob, hstep2⟩ :=
      unmountSingle_run i n s1 (f1 + 1) hn1 ht hhook hlis (by omega)
    rw [hstep2]
    refine ⟨_, d1 ++ [ob, Event.hook i, Event.removed i], rfl, ?_, ?_, ?_, ?_⟩
    · intro j
      show alookup j (aremove i s1.map) = _
      by_cases hji : j = i
      · subst hji
        simp [alookup_aremove_self, idsT]
      · rw [alookup_aremove_of_ne i j s1.map hji, hrem1 j]
        by_cases hjc : j ∈ idsF cs
        · simp [idsT, hjc]
        · simp [idsT, hji, hjc]
    · exact sameAux_trans haux1 ⟨rfl, rfl, rfl, rfl, rfl⟩
    · show s1.log ++ [ob, Event.hook i, Event.removed i] = _
      rw [hlog1, List.append_assoc]
    · rw [hrSeq_append, hhr1, hrSeq_block ob i hob]
      simp [revHRT]

theorem rev_run_F (cs : List Tree) : ∀ (p : Nat) (s : Globals) (fuel : Nat),
    repF s p cs = true → (idsF cs).Nodup → fuelF cs ≤ fuel →
    ∃ s' d, step fuel (.childLoop true (rootsF cs)) s = some s' ∧
      removesIds (idsF cs) s s' ∧ sameAux s s' ∧
      s'.log = s.log ++ d ∧ hrSeq d = revHRF cs :=
  match cs with
  | [] => by
    intro p s fuel hrep hnd hf
    have hf1 : 1 ≤ fuel := by simpa [fuelF] using hf
    obtain ⟨f, rfl⟩ : ∃ f, fuel = f + 1 := ⟨fuel - 1, by omega⟩
    rw [show rootsF [] = [] from rfl, step_childLoop_nil]
    exact ⟨s, [], rfl, fun j => by simp [idsF], sameAux_refl s, by simp, rfl⟩
  | t :: ts => by
    intro p s fuel hrep hnd hf
    simp only [repF, Bool.and_eq_true] at hrep
    have hndA : (idsT t ++ idsF ts).Nodup := by simpa [idsF] using hnd
    have hfu : fuelT t + fuelF ts + 4 ≤ fuel := by simpa [fuelF] using hf
    obtain ⟨f, rfl⟩ : ∃ f, fuel = f + 1 := ⟨fuel - 1, by omega⟩
    rw [show rootsF (t :: ts) = t.rootId :: rootsF ts from rfl, step_childLoop_cons]
    obtain ⟨s1, d1, hstep1, hrem1, haux1, hlog1, hhr1⟩ :=
      rev_run_T t p s f hrep.1 hndA.of_append_left (by omega)
    rw [repT_isSome hrep.1]
    simp only [if_true, hstep1, Option.some_bind]
    have hdisj := List.disjoint_of_nodup_append hndA
    have hrep2 : repF s1 p ts = true := by
      rw [repF_ext s s1 p ts (fun j hj => by
        rw [hrem1 j, if_neg (fun hjT => hdisj hjT hj)])]
      exact hrep.2
    obtain ⟨s2, d2, hstep2, hrem2, haux2, hlog2, hhr2⟩ :=
      rev_run_F ts p s1 f hrep2 hndA.of_append_right (by omega)
    rw [hstep2]
    refine ⟨s2, d1 ++ d2, rfl, ?_, sameAux_trans haux1 haux2, ?_, ?_⟩
    · intro j
      rw [hrem2 j]
      by_cases hj2 : j ∈ idsF ts
      · simp [idsF, hj2]
      · rw [hrem1 j]
        by_cases hj1 : j ∈ idsT t
        · simp [idsF, hj1]
        · simp [idsF, hj1, hj2]
    · rw [hlog2, hlog1, List.append_assoc]
    · rw [hrSeq_append, hhr1, hhr2]
      simp [revHRF]
end

/-! ### Ordering facts about the `reverse_unmount` event sequence -/

/-- The ids of the `hook` events of a log, in order. -/
def hookIds (l : List Event) : List Nat :=
  l.filterMap (fun e => match e with | .hook j => some j | _ => none)

theorem hookIds_append (a b : List Event) :
    hookIds (a ++ b) = hookIds a ++ hookIds b := List.filterMap_append a b _

theorem hookIds_hrSeq (l : List Event) : hookIds (hrSeq l) = hookIds l := by
  induction l with
  | nil => rfl
  | cons e l ih =>
    cases e <;> simp [hrSeq, hookIds, List.filter_cons, List.filterMap_cons, isHR] <;>
      simpa [hrSeq, hookIds] using ih

mutual
theorem revHR_mem_T (t : Tree) : ∀ j ∈ idsT t,
    Event.hook j ∈ revHRT t ∧ Event.removed j ∈ revHRT t :=
  match t with
  | .node i cs => by
    intro j hj
    rcases (by simpa [idsT] using hj : j = i ∨ j ∈ idsF cs) with rfl | hj'
    · simp [revHRT]
    · have := revHR_mem_F cs j hj'
      simp [revHRT, List.mem_append, this.1, this.2]
theorem revHR_mem_F (cs : List Tree) : ∀ j ∈ idsF cs,
    Event.hook j ∈ revHRF cs ∧ Event.removed j ∈ revHRF cs :=
  match cs with
  | [] => by intro j hj; simp [idsF] at hj
  | t :: ts => by
    intro j hj
    rcases (by simpa [idsF] using hj : j ∈ idsT t ∨ j ∈ idsF ts) with hj' | hj'
    · have := revHR_mem_T t j hj'
      simp [revHRF, List.mem_append, this.1, this.2]
    · have := revHR_mem_F ts j hj'
      simp [revHRF, List.mem_append, this.1, this.2]
end

mutual
theorem revHR_adj_T (t : Tree) : ∀ j ∈ idsT t,
    ∃ l1 l2, revHRT t = l1 ++ [Event.hook j, Event.removed j] ++ l2 :=
  match t with
  | .node i cs => by
    intro j hj
    rcases (by simpa [idsT] using hj : j = i ∨ j ∈ idsF cs) with rfl | hj'
    · exact ⟨revHRF cs, [], by simp [revHRT]⟩
    · obtain ⟨l1, l2, hl⟩ := revHR_adj_F cs j hj'
      exact ⟨l1, l2 ++ [Event.hook i, Event.removed i],
        by simp [revHRT, hl, List.append_assoc]⟩
theorem revHR_adj_F (cs : List Tree) : ∀ j ∈ idsF cs,
    ∃ l1 l2, revHRF cs = l1 ++ [Event.hook j, Event.removed j] ++ l2 :=
  match cs with
  | [] => by intro j hj; simp [idsF] at hj
  | t :: ts => by
    intro j hj
    rcases (by simpa [idsF] using hj : j ∈ idsT t ∨ j ∈ idsF ts) with hj' | hj'
    · obtain ⟨l1, l2, hl⟩ := revHR_adj_T t j hj'
      exact ⟨l1, l2 ++ revHRF ts, by simp [revHRF, hl, List.append_assoc]⟩
    · obtain ⟨l1, l2, hl⟩ := revHR_adj_F ts j hj'
      exact ⟨revHRT t ++ l1, l2, by simp [revHRF, hl, List.append_assoc]⟩
end

mutual
theorem revHR_desc_T (t : Tree) : ∀ a d, (a, d) ∈ descPairsT t →
    [Event.hook d, Event.hook a].Sublist (revHRT t) ∧
    [Event.removed d, Event.hook a].Sublist (revHRT t) :=
  match t with
  | .node i cs => by
    intro a d hp
    rcases (by simpa [descPairsT, List.mem_append, List.mem_map, Prod.ext_iff]
        using hp : (∃ x ∈ idsF cs, i = a ∧ x = d) ∨ (a, d) ∈ descPairsF cs) with
      ⟨x, hx, ha, hd⟩ | hp'
    · subst ha
      subst hd
      have hm := revHR_mem_F cs x hx
      constructor
      · have h1 : [Event.hook x].Sublist (revHRF cs) := List.singleton_sublist.mpr hm.1
        have h2 : [Event.hook i].Sublist [Event.hook i, Event.removed i] := by simp
        simpa [revHRT] using h1.append h2
      · have h1 : [Event.removed x].Sublist (revHRF cs) := List.singleton_sublist.mpr hm.2
        have h2 : [Event.hook i].Sublist [Event.hook i, Event.removed i] := by simp
        simpa [revHRT] using h1.append h2
    · have h := revHR_desc_F cs a d hp'
      exact ⟨by simpa [revHRT] using h.1.trans (List.sublist_append_left _ _),
             by simpa [revHRT] using h.2.trans (List.sublist_append_left _ _)⟩
theorem revHR_desc_F (cs : List Tree) : ∀ a d, (a, d) ∈ descPairsF cs →
    [Event.hook d, Event.hook a].Sublist (revHRF cs) ∧
    [Event.removed d, Event.hook a].Sublist (revHRF cs) :=
  match cs with
  | [] => by intro a d hp; simp [descPairsF] at hp
  | t :: ts => by
    intro a d hp
    rcases (by simpa [descPairsF, List.mem_append] using hp :
        (a, d) ∈ descPairsT t ∨ (a, d) ∈ descPairsF ts) with hp' | hp'
    · have h := revHR_desc_T t a d hp'
      exact ⟨by simpa [revHRF] using h.1.trans (List.sublist_append_left _ _),
             by simpa [revHRF] using h.2.trans (List.sublist_append_left _ _)⟩
    · have h := revHR_desc_F ts a d hp'
      exact ⟨by simpa [revHRF] using h.1.trans (List.sublist_append_right _ _),
             by simpa [revHRF] using h.2.trans (List.sublist_append_right _ _)⟩
end

mutual
theorem revHR_hookIds_T (t : Tree) : hookIds (revHRT t) = postT t :=
  match t with
  | .node i cs => by
    rw [show revHRT (.node i cs) = revHRF cs ++ [Event.hook i, Event.removed i] from rfl,
        hookIds_append, revHR_hookIds_F cs]
    rfl
theorem revHR_hookIds_F (cs : List Tree) : hookIds (revHRF cs) = postF cs :=
  match cs with
  | [] => rfl
  | t :: ts => by
    rw [show revHRF (t :: ts) = revHRT t ++ revHRF ts from rfl,
        hookIds_append, revHR_hookIds_T t, revHR_hookIds_F ts]
    rfl
end

/-- C5: `reverse_unmount(N)` on a realised finite acyclic (passive) subtree
succeeds and: every node of the subtree ends up removed (`is_valid` false);
the unmount hooks fire in post-order (the hook-id sequence equals `postT t`,
and for every proper ancestor/descendant pair the descendant's hook — and
even its removal — precedes the ancestor's hook in the log); and each node
is removed immediately after its own hook returns (its `hook` and `removed`
events are adjacent in the `hook`/`removed` subsequence of the log). -/
theorem c5_reverse_unmount_postorder (t : Tree) (p : Nat) (s : Globals) (fuel : Nat)
    (hrep : repT s p t = true) (hnd : (idsT t).Nodup) (hf : fuelT t ≤ fuel) :
    ∃ s' d, step fuel (.reverseUnmountOp t.rootId) s = some s' ∧
      s'.log = s.log ++ d ∧
      (∀ j ∈ idsT t, is_valid s' j = false) ∧
      hookIds d = postT t ∧
      (∀ a dd, (a, dd) ∈ descPairsT t →
        [Event.hook dd, Event.hook a].Sublist d ∧
        [Event.removed dd, Event.hook a].Sublist d) ∧
      (∀ j ∈ idsT t, ∃ l1 l2, hrSeq d = l1 ++ [Event.hook j, Event.removed j] ++ l2) := by
  obtain ⟨s', d, h1, hrem, haux, hlog, hhr⟩ := rev_run_T t p s fuel hrep hnd hf
  refine ⟨s', d, h1, hlog, ?_, ?_, ?_, ?_⟩
  · intro j hj
    have h := hrem j
    rw [if_pos hj] at h
    simp [is_valid, h]
  · rw [← hookIds_hrSeq, hhr]
    exact revHR_hookIds_T t
  · intro a dd hp
    have h := revHR_desc_T t a dd hp
    rw [← hhr] at h
    exact ⟨h.1.trans (List.filter_sublist d), h.2.trans (List.filter_sublist d)⟩
  · intro j hj
    rw [hhr]
    exact revHR_adj_T t j hj

/-- The two-node tree realised by `twoNodeArena`. -/
def treeTwo : Tree := .node 0 [.node 1 []]

/-- C5 witness: the theorem applied to `treeTwo` in `twoNodeArena`. -/
theorem c5_witness :
    repT twoNodeArena 0 treeTwo = true ∧ (idsT treeTwo).Nodup ∧ fuelT treeTwo ≤ 30 ∧
    (∃ s' d, step 30 (.reverseUnmountOp treeTwo.rootId) twoNodeArena = some s' ∧
      s'.log = twoNodeArena.log ++ d ∧
      (∀ j ∈ idsT treeTwo, is_valid s' j = false) ∧
      hookIds d = postT treeTwo ∧
      (∀ a dd, (a, dd) ∈ descPairsT treeTwo →
        [Event.hook dd, Event.hook a].Sublist d ∧
        [Event.removed dd, Event.hook a].Sublist d) ∧
      (∀ j ∈ idsT treeTwo, ∃ l1 l2,
        hrSeq d = l1 ++ [Event.hook j, Event.removed j] ++ l2)) :=
  ⟨by decide, by decide, by decide,
   c5_reverse_unmount_postorder treeTwo 0 twoNodeArena 30 (by decide) (by decide) (by decide)⟩

/-! ## C6: `late_unmount` — two passes, nothing removed during pass 1 -/

theorem repF_roots (s : Globals) (p : Nat) (cs : List Tree) (h : repF s p cs = true) :
    ∀ r ∈ rootsF cs, is_valid s r = true := by
  induction cs with
  | nil => simp [rootsF]
  | cons t ts ih =>
    simp only [repF, Bool.and_eq_true] at h
    intro r hr
    rcases (by simpa [rootsF] using hr : r = t.rootId ∨ r ∈ rootsF ts) with rfl | hr'
    · simpa [is_valid] using repT_isSome h.1
    · exact ih h.2 r hr'

mutual
theorem rep_ids_T (t : Tree) : ∀ (p : Nat) (s : Globals), repT s p t = true →
    ∀ j ∈ idsT t, ∃ n, alookup j s.map = some n ∧ n.taken = false ∧ n.listeners = [] :=
  match t with
  | .node i cs => by
    intro p s h j hj
    obtain ⟨n, hn, ht, _, _, _, hl, _, hcs⟩ := repT_node h
    rcases (by simpa [idsT] using hj : j = i ∨ j ∈ idsF cs) with rfl | hj'
    · exact ⟨n, hn, ht, hl⟩
    · exact rep_ids_F cs i s hcs j hj'
theorem rep_ids_F (cs : List Tree) : ∀ (p : Nat) (s : Globals), repF s p cs = true →
    ∀ j ∈ idsF cs, ∃ n, alookup j s.map = some n ∧ n.taken = false ∧ n.listeners = [] :=
  match cs with
  | [] => by intro p s _ j hj; simp [idsF] at hj
  | t :: ts => by
    intro p s h j hj
    simp only [repF, Bool.and_eq_true] at h
    rcases (by simpa [idsF] using hj : j ∈ idsT t ∨ j ∈ idsF ts) with hj' | hj'
    · exact rep_ids_T t p s h.1 j hj'
    · exact rep_ids_F ts p s h.2 j hj'
end

/-- Pass 2 of `late_unmount`: removing a list of present, listener-free
nodes removes exactly them and logs their removals in list order. -/
theorem lateRemoveList_run (ids : List Nat) : ∀ (s : Globals),
    (∀ j ∈ ids, ∃ n, alookup j s.map = some n ∧ n.listeners = []) → ids.Nodup →
    ∃ s', lateRemoveList ids s = some s' ∧
      removesIds ids s s' ∧
      s'.signal_map = s.signal_map ∧ s'.listener_removal = s.listener_removal ∧
      s'.next_component_id = s.next_component_id ∧
      s'.next_signal_id = s.next_signal_id ∧ s'.lateAcc = s.lateAcc ∧
      s'.log = s.log ++ ids.map Event.removed := by
  induction ids with
  | nil =>
    intro s _ _
    exact ⟨s, rfl, fun j => by simp, rfl, rfl, rfl, rfl, rfl, by simp⟩
  | cons i rest ih =>
    intro s hpres hnd
    obtain ⟨n, hn, hl⟩ := hpres i (by simp)
    have hnd' := List.nodup_cons.mp hnd
    have hstep1 : removeAndDetach i s =
        some { s with map := aremove i s.map, log := s.log ++ [Event.removed i] } := by
      simp [removeAndDetach, hn, hl, detachListeners]
    obtain ⟨s', hrun, hrem, h1, h2, h3, h4, h5, h6⟩ :=
      ih { s with map := aremove i s.map, log := s.log ++ [Event.removed i] }
        (fun j hj => by
          obtain ⟨n', hn', hl'⟩ := hpres j (by simp [hj])
          exact ⟨n', by
            show alookup j (aremove i s.map) = some n'
            rw [alookup_aremove_of_ne i j s.map (fun hji => hnd'.1 (hji ▸ hj)), hn'], hl'⟩)
        hnd'.2
    refine ⟨s', ?_, ?_, h1, h2, h3, h4, h5, ?_⟩
    · show (removeAndDetach i s).bind (lateRemoveList rest) = some s'
      rw [hstep1, Option.some_bind, hrun]
    · intro j
      rw [hrem j]
      by_cases hjr : j ∈ rest
      · simp [hjr]
      · by_cases hji : j = i
        · subst hji
          simp [hjr, alookup_aremove_self]
        · show _ = if j ∈ i :: rest then none else alookup j s.map
          rw [if_neg hjr, if_neg (by simp [hji, hjr])]
          exact alookup_aremove_of_ne i j s.map hji
    · rw [h6]
      simp [List.append_assoc]

theorem isSome_alookup_aset (i j : Nat) (v : α) (m : List (Nat × α))
    (hm : (alookup i m).isSome = true) :
    (alookup j (aset i v m)).isSome = (alookup j m).isSome := by
  by_cases h : j = i
  · subst h
    simp [alookup_aset_self, hm]
  · rw [alookup_aset_of_ne i j v m h]

theorem node_untaken_eta2 (n : Node) (ht : n.taken = false) (hh : n.unmountHook = Cmd.nop) :
    ({ parent := n.parent, children := n.children, taken := false,
       listeners := n.listeners, ty := n.ty, unmountHook := Cmd.nop,
       updateHook := n.updateHook, repaintFlag := n.repaintFlag } : Node) = n := by
  cases n
  simp_all

/-- First half of `late_unmount_impl` on a present, untaken node with an
inert hook: record the id, take, observe, fire the hook, replace — then
continue with the children snapshot on the restored arena. -/
theorem lateImpl_start (i : Nat) (n : Node) (s : Globals) (g : Nat)
    (hn : alookup i s.map = some n) (ht : n.taken = false)
    (hh : n.unmountHook = Cmd.nop) :
    step (g + 2) (.lateImpl i) s =
      step (g + 1) (.lateImplList n.children)
        { s with lateAcc := s.lateAcc ++ [i],
                 log := s.log ++ [Event.obs i (is_valid s n.parent)
                   (n.children.all (is_valid s)), Event.hook i] } := by
  have hsome : (alookup i s.map).isSome = true := by rw [hn]; rfl
  have htake : takeNode i { s with lateAcc := s.lateAcc ++ [i] } =
      some (n, { s with map := aset i ({ n with taken := true }) s.map,
                        lateAcc := s.lateAcc ++ [i] }) := by
    simp [takeNode, hn, ht]
  rw [step_lateImpl_some (g + 1) i _ n _ htake]
  have hobs : obsEvent { s with map := aset i ({ n with taken := true }) s.map,
                                lateAcc := s.lateAcc ++ [i] } n i =
      Event.obs i (is_valid s n.parent) (n.children.all (is_valid s)) := by
    have hfun : is_valid { s with map := aset i ({ n with taken := true }) s.map,
                                  lateAcc := s.lateAcc ++ [i] } = is_valid s := by
      funext j
      show (alookup j (aset i ({ n with taken := true }) s.map)).isSome = _
      exact isSome_alookup_aset i j _ s.map hsome
    rw [obsEvent, hfun]
  rw [hobs, hh, step_nop, Option.some_bind]
  simp only [replaceNode, alookup_aset_self, Option.some_bind]
  simp [aset_aset, node_untaken_eta2 n ht hh, aset_lookup_self i n s.map hn, hn]

mutual
/-- Pass 1 of `late_unmount` (`late_unmount_impl`) on a realised passive
tree whose root has a valid parent: it succeeds, changes nothing in the
arena (take/replace restores every payload), records the tree's ids in
pre-order, and logs - for every node, in pre-order - an observation of a
valid parent and valid children followed by the node's hook invocation. -/
theorem late_impl_T (t : Tree) : ∀ (p : Nat) (s : Globals) (fuel : Nat),
    repT s p t = true → is_valid s p = true → fuelT t ≤ fuel →
    ∃ s', step fuel (.lateImpl t.rootId) s = some s' ∧
      s'.map = s.map ∧ s'.signal_map = s.signal_map ∧
      s'.listener_removal = s.listener_removal ∧
      s'.next_component_id = s.next_component_id ∧
      s'.next_signal_id = s.next_signal_id ∧
      s'.lateAcc = s.lateAcc ++ idsT t ∧
      s'.log = s.log ++ lateLogT t :=
  match t with
  | .node i cs => by
    intro p s fuel hrep hpv hf
    obtain ⟨n, hn, ht, hpar, hhook, hupd, hlis, hch, hcs⟩ := repT_node hrep
    have hfc : fuelF cs + 8 ≤ fuel := by simpa [fuelT] using hf
    obtain ⟨f, rfl⟩ : ∃ f, fuel = f + 2 := ⟨fuel - 2, by omega⟩
    rw [show (Tree.node i cs).rootId = i from rfl,
        lateImpl_start i n s f hn ht hhook, hch, hpar, hpv,
        List.all_eq_true.mpr (repF_roots s i cs hcs)]
    have hrepF : repF { s with lateAcc := s.lateAcc ++ [i],
                               log := s.log ++ [Event.obs i true true, Event.hook i] }
        i cs = true := by
      refine (repF_ext s ?_ i cs ?_).trans hcs
      exact fun j _ => rfl
    have hvi : is_valid { s with lateAcc := s.lateAcc ++ [i],
                                 log := s.log ++ [Event.obs i true true, Event.hook i] }
        i = true := by
      show (alookup i s.map).isSome = true
      rw [hn]
      rfl
    obtain ⟨s', hrun, hm, h1, h2, h3, h4, h5, h6⟩ :=
      late_impl_F cs i _ (f + 1) hrepF hvi (by omega)
    rw [hrun]
    refine ⟨s', rfl, hm, h1, h2, h3, h4, ?_, ?_⟩
    · rw [h5]
      simp [idsT, List.append_assoc]
    · rw [h6]
      simp [lateLogT, List.append_assoc]

theorem late_impl_F (cs : List Tree) : ∀ (p : Nat) (s : Globals) (fuel : Nat),
    repF s p cs = true → is_valid s p = true → fuelF cs ≤ fuel →
    ∃ s', step fuel (.lateImplList (rootsF cs)) s = some s' ∧
      s'.map = s.map ∧ s'.signal_map = s.signal_map ∧
      s'.listener_removal = s.listener_removal ∧
      s'.next_component_id = s.next_component_id ∧
      s'.next_signal_id = s.next_signal_id ∧
      s'.lateAcc = s.lateAcc ++ idsF cs ∧
      s'.log = s.log ++ lateLogF cs :=
  match cs with
  | [] => by
    intro p s fuel hrep hpv hf
    have hf1 : 1 ≤ fuel := by simpa [fuelF] using hf
    obtain ⟨f, rfl⟩ : ∃ f, fuel = f + 1 := ⟨fuel - 1, by omega⟩
    rw [show rootsF [] = [] from rfl, step_lateImplList_nil]
    exact ⟨s, rfl, rfl, rfl, rfl, rfl, rfl, by simp [idsF], by simp [lateLogF]⟩
  | t :: ts => by
    intro p s fuel hrep hpv hf
    simp only [repF, Bool.and_eq_true] at hrep
    have hfu : fuelT t + fuelF ts + 4 ≤ fuel := by simpa [fuelF] using hf
    obtain ⟨f, rfl⟩ : ∃ f, fuel = f + 1 := ⟨fuel - 1, by omega⟩
    rw [show rootsF (t :: ts) = t.rootId :: rootsF ts from rfl, step_lateImplList_cons]
    obtain ⟨s1, hrun1, hm1, ha1, hb1, hc1, hd1, he1, hl1⟩ :=
      late_impl_T t p s f hrep.1 hpv (by omega)
    rw [hrun1, Option.some_bind]
    have hrepF : repF s1 p ts = true := by
      rw [repF_ext s s1 p ts (fun j _ => by rw [hm1])]
      exact hrep.2
    have hpv1 : is_valid s1 p = true := by
      show (alookup p s1.map).isSome = true
      rw [hm1]
      exact hpv
    obtain ⟨s2, hrun2, hm2, ha2, hb2, hc2, hd2, he2, hl2⟩ :=
      late_impl_F ts p s1 f hrepF hpv1 (by omega)
    rw [hrun2]
    refine ⟨s2, rfl, hm2.trans hm1, ha2.trans ha1, hb2.trans hb1, hc2.trans hc1,
      hd2.trans hd1, ?_, ?_⟩
    · rw [he2, he1]
      simp [idsF, List.append_assoc]
    · rw [hl2, hl1]
      simp [lateLogF, List.append_assoc]
end

mutual
theorem lateLog_obs_T (t : Tree) : ∀ i pv cv, Event.obs i pv cv ∈ lateLogT t →
    pv = true ∧ cv = true :=
  match t with
  | .node j cs => by
    intro i pv cv h
    rcases (by simpa [lateLogT, List.mem_cons] using h :
        (i = j ∧ pv = true ∧ cv = true) ∨ Event.obs i pv cv ∈ lateLogF cs) with h1 | h1
    · exact ⟨h1.2.1, h1.2.2⟩
    · exact lateLog_obs_F cs i pv cv h1
theorem lateLog_obs_F (cs : List Tree) : ∀ i pv cv, Event.obs i pv cv ∈ lateLogF cs →
    pv = true ∧ cv = true :=
  match cs with
  | [] => by intro i pv cv h; simp [lateLogF] at h
  | t :: ts => by
    intro i pv cv h
    rcases (by simpa [lateLogF, List.mem_append] using h :
        Event.obs i pv cv ∈ lateLogT t ∨ Event.obs i pv cv ∈ lateLogF ts) with h1 | h1
    · exact lateLog_obs_T t i pv cv h1
    · exact lateLog_obs_F ts i pv cv h1
end

mutual
theorem lateLog_hookIds_T (t : Tree) : hookIds (lateLogT t) = idsT t :=
  match t with
  | .node j cs => by
    rw [show lateLogT (.node j cs) =
          [Event.obs j true true, Event.hook j] ++ lateLogF cs from rfl,
        hookIds_append, lateLog_hookIds_F cs]
    rfl
theorem lateLog_hookIds_F (cs : List Tree) : hookIds (lateLogF cs) = idsF cs :=
  match cs with
  | [] => rfl
  | t :: ts => by
    rw [show lateLogF (t :: ts) = lateLogT t ++ lateLogF ts from rfl,
        hookIds_append, lateLog_hookIds_T t, lateLog_hookIds_F ts]
    rfl
end

mutual
theorem lateLog_noRemoved_T (t : Tree) : ∀ i, Event.removed i ∉ lateLogT t :=
  match t with
  | .node j cs => by
    intro i h
    rcases (by simpa [lateLogT, List.mem_cons] using h :
        Event.removed i ∈ lateLogF cs) with h1
    exact lateLog_noRemoved_F cs i h1
theorem lateLog_noRemoved_F (cs : List Tree) : ∀ i, Event.removed i ∉ lateLogF cs :=
  match cs with
  | [] => by intro i h; simp [lateLogF] at h
  | t :: ts => by
    intro i h
    rcases (by simpa [lateLogF, List.mem_append] using h :
        Event.removed i ∈ lateLogT t ∨ Event.removed i ∈ lateLogF ts) with h1 | h1
    · exact lateLog_noRemoved_T t i h1
    · exact lateLog_noRemoved_F ts i h1
end

/-- C6: `late_unmount(N)` on a realised finite acyclic (passive) subtree
whose root has a valid parent: the run succeeds with log
`pass-1 events ++ removals`, where the pass-1 events contain no removal at
all (all removals happen only after every hook in the subtree has run), the
removals are in visit order (the pre-order `idsT t`, which is also the order
of the hook events), and every observation made at a hook invocation saw
`is_valid` true for the node's parent and for each of its children.
Afterwards every node of the subtree is gone. -/
theorem c6_late_unmount_hooks_before_removals (t : Tree) (p : Nat) (s : Globals)
    (fuel : Nat) (hrep : repT s p t = true) (hnd : (idsT t).Nodup)
    (hpv : is_valid s p = true) (hf : fuelT t + 1 ≤ fuel) :
    ∃ s', step fuel (.lateUnmountOp t.rootId) s = some s' ∧
      s'.log = s.log ++ lateLogT t ++ (idsT t).map Event.removed ∧
      (∀ j ∈ idsT t, is_valid s' j = false) ∧
      (∀ i pv cv, Event.obs i pv cv ∈ lateLogT t → pv = true ∧ cv = true) ∧
      hookIds (lateLogT t) = idsT t ∧
      (∀ i, Event.removed i ∉ lateLogT t) := by
  obtain ⟨f, rfl⟩ : ∃ f, fuel = f + 1 := ⟨fuel - 1, by omega⟩
  rw [step_lateUnmountOp]
  have hrep0 : repT { s with lateAcc := [] } p t = true := by
    refine (repT_ext s ?_ p t ?_).trans hrep
    exact fun j _ => rfl
  have hpv0 : is_valid { s with lateAcc := [] } p = true := by
    show (alookup p s.map).isSome = true
    exact hpv
  obtain ⟨s1, hrun1, hm1, ha1, hb1, hc1, hd1, he1, hl1⟩ :=
    late_impl_T t p { s with lateAcc := [] } f hrep0 hpv0 (by omega)
  rw [hrun1, Option.some_bind]
  have hacc : s1.lateAcc = idsT t := by
    rw [he1]
    rfl
  rw [hacc]
  have hpres : ∀ j ∈ idsT t, ∃ n,
      alookup j ({ s1 with lateAcc := [] } : Globals).map = some n ∧ n.listeners = [] := by
    intro j hj
    obtain ⟨n, hn, _, hl⟩ := rep_ids_T t p s hrep j hj
    refine ⟨n, ?_, hl⟩
    show alookup j s1.map = some n
    rw [hm1]
    exact hn
  obtain ⟨s2, hrun2, hrem2, ha2, hb2, hc2, hd2, he2, hl2⟩ :=
    lateRemoveList_run (idsT t) { s1 with lateAcc := [] } hpres hnd
  rw [hrun2, Option.some_bind]
  refine ⟨_, rfl, ?_, ?_, lateLog_obs_T t, lateLog_hookIds_T t, lateLog_noRemoved_T t⟩
  · show s2.log = _
    rw [hl2]
    show s1.log ++ _ = _
    rw [hl1]
  · intro j hj
    show (alookup j s2.map).isSome = false
    rw [hrem2 j, if_pos hj]
    rfl

/-- C6 witness: the theorem applied to `treeTwo` in `twoNodeArena`. -/
theorem c6_witness :
    repT twoNodeArena 0 treeTwo = true ∧ (idsT treeTwo).Nodup ∧
    is_valid twoNodeArena 0 = true ∧ fuelT treeTwo + 1 ≤ 40 ∧
    (∃ s', step 40 (.lateUnmountOp treeTwo.rootId) twoNodeArena = some s' ∧
      s'.log = twoNodeArena.log ++ lateLogT treeTwo ++ (idsT treeTwo).map Event.removed ∧
      (∀ j ∈ idsT treeTwo, is_valid s' j = false) ∧
      (∀ i pv cv, Event.obs i pv cv ∈ lateLogT treeTwo → pv = true ∧ cv = true) ∧
      hookIds (lateLogT treeTwo) = idsT treeTwo ∧
      (∀ i, Event.removed i ∉ lateLogT treeTwo)) :=
  ⟨by decide, by decide, by decide, by decide,
   c6_late_unmount_hooks_before_removals treeTwo 0 twoNodeArena 40
     (by decide) (by decide) (by decide) (by decide)⟩

/-! ## C9: `update` with repaint and propagation -/

/-- The repaint marking `update` performs (`node.repaint()`). -/
def setFlag (n : Node) : Node := { n with repaintFlag := true }

theorem node_untaken_eta3 (n : Node) (ht : n.taken = false) (hu : n.updateHook = Cmd.nop) :
    ({ parent := n.parent, children := n.children, taken := false,
       listeners := n.listeners, ty := n.ty, unmountHook := n.unmountHook,
       updateHook := Cmd.nop, repaintFlag := n.repaintFlag } : Node) = n := by
  cases n
  simp_all

/-- First half of `Globals::update` on a present, untaken node with an inert
update hook: take, fire the hook, replace, mark the repaint flag — then
propagate over the children snapshot. -/
theorem updateOp_start (i : Nat) (n : Node) (s : Globals) (g : Nat)
    (hn : alookup i s.map = some n) (ht : n.taken = false)
    (hu : n.updateHook = Cmd.nop) :
    step (g + 2) (.updateOp i .yes .yes) s =
      step (g + 1) (.updateList n.children .yes .yes)
        { s with map := aset i ({ n with repaintFlag := true }) s.map,
                 log := s.log ++ [Event.upd i] } := by
  have htake : takeNode i s =
      some (n, { s with map := aset i ({ n with taken := true }) s.map }) := by
    simp [takeNode, hn, ht]
  rw [step_updateOp_some (g + 1) i .yes .yes s n _ htake, hu, step_nop, Option.some_bind]
  simp only [replaceNode, alookup_aset_self, Option.some_bind]
  simp [aset_aset, node_untaken_eta3 n ht hu, aset_lookup_self i n s.map hn, hn, hu, ht]

mutual
/-- Execution of `update(_, Repaint::Yes, Propagate::Yes)` on a realised
passive tree: it succeeds, sets the repaint flag of exactly the tree's
nodes (leaving everything else untouched), and logs the update-hook
invocations in pre-order. -/
theorem upd_run_T (t : Tree) : ∀ (p : Nat) (s : Globals) (fuel : Nat),
    repT s p t = true → (idsT t).Nodup → fuelT t ≤ fuel →
    ∃ s', step fuel (.updateOp t.rootId .yes .yes) s = some s' ∧
      (∀ j, alookup j s'.map = if j ∈ idsT t
        then (alookup j s.map).map setFlag else alookup j s.map) ∧
      sameAux s s' ∧
      s'.log = s.log ++ (idsT t).map Event.upd :=
  match t with
  | .node i cs => by
    intro p s fuel hrep hnd hf
    obtain ⟨n, hn, ht, hpar, hhook, hupd, hlis, hch, hcs⟩ := repT_node hrep
    have hfc : fuelF cs + 8 ≤ fuel := by simpa [fuelT] using hf
    obtain ⟨f, rfl⟩ : ∃ f, fuel = f + 2 := ⟨fuel - 2, by omega⟩
    rw [show (Tree.node i cs).rootId = i from rfl, updateOp_start i n s f hn ht hupd, hch]
    have hnd' := List.nodup_cons.mp (show (i :: idsF cs).Nodup by simpa [idsT] using hnd)
    have hrepF : repF { s with map := aset i ({ n with children := rootsF cs, repaintFlag := true }) s.map,
                               log := s.log ++ [Event.upd i] } i cs = true := by
      refine (repF_ext s ?_ i cs ?_).trans hcs
      intro j hj
      show alookup j (aset i ({ n with children := rootsF cs, repaintFlag := true }) s.map) = alookup j s.map
      exact alookup_aset_of_ne i j _ s.map (fun hji => hnd'.1 (hji ▸ hj))
    obtain ⟨s', hrun, hrem, haux, hlog⟩ :=
      upd_run_F cs i _ (f + 1) hrepF hnd'.2 (by omega)
    rw [hrun]
    refine ⟨s', rfl, ?_, sameAux_trans ⟨rfl, rfl, rfl, rfl, rfl⟩ haux, ?_⟩
    · intro j
      rw [hrem j]
      by_cases hjc : j ∈ idsF cs
      · rw [if_pos hjc, if_pos (by simp [idsT, hjc])]
        show ((alookup j (aset i ({ n with children := rootsF cs, repaintFlag := true }) s.map)).map setFlag) = _
        rw [alookup_aset_of_ne i j _ s.map (fun hji => hnd'.1 (hji ▸ hjc))]
      · rw [if_neg hjc]
        by_cases hji : j = i
        · subst hji
          show alookup j (aset j ({ n with children := rootsF cs, repaintFlag := true }) s.map) = _
          rw [alookup_aset_self, if_pos (by simp [idsT]), hn]
          simp [setFlag, hch]
        · show alookup j (aset i ({ n with children := rootsF cs, repaintFlag := true }) s.map) = _
          rw [alookup_aset_of_ne i j _ s.map hji, if_neg (by simp [idsT, hji, hjc])]
    · rw [hlog]
      show s.log ++ [Event.upd i] ++ _ = _
      simp [idsT, List.append_assoc]

theorem upd_run_F (cs : List Tree) : ∀ (p : Nat) (s : Globals) (fuel : Nat),
    repF s p cs = true → (idsF cs).Nodup → fuelF cs ≤ fuel →
    ∃ s', step fuel (.updateList (rootsF cs) .yes .yes) s = some s' ∧
      (∀ j, alookup j s'.map = if j ∈ idsF cs
        then (alookup j s.map).map setFlag else alookup j s.map) ∧
      sameAux s s' ∧
      s'.log = s.log ++ (idsF cs).map Event.upd :=
  match cs with
  | [] => by
    intro p s fuel hrep hnd hf
    have hf1 : 1 ≤ fuel := by simpa [fuelF] using hf
    obtain ⟨f, rfl⟩ : ∃ f, fuel = f + 1 := ⟨fuel - 1, by omega⟩
    rw [show rootsF [] = [] from rfl, step_updateList_nil]
    exact ⟨s, rfl, fun j => by simp [idsF], sameAux_refl s, by simp [idsF]⟩
  | t :: ts => by
    intro p s fuel hrep hnd hf
    simp only [repF, Bool.and_eq_true] at hrep
    have hndA : (idsT t ++ idsF ts).Nodup := by simpa [idsF] using hnd
    have hfu : fuelT t + fuelF ts + 4 ≤ fuel := by simpa [fuelF] using hf
    obtain ⟨f, rfl⟩ : ∃ f, fuel = f + 1 := ⟨fuel - 1, by omega⟩
    rw [show rootsF (t :: ts) = t.rootId :: rootsF ts from rfl, step_updateList_cons]
    obtain ⟨s1, hrun1, hrem1, haux1, hlog1⟩ :=
      upd_run_T t p s f hrep.1 hndA.of_append_left (by omega)
    rw [hrun1, Option.some_bind]
    have hdisj := List.disjoint_of_nodup_append hndA
    have hrepF : repF s1 p ts = true := by
      refine (repF_ext s ?_ p ts ?_).trans hrep.2
      intro j hj
      rw [hrem1 j, if_neg (fun hjT => hdisj hjT hj)]
    obtain ⟨s2, hrun2, hrem2, haux2, hlog2⟩ :=
      upd_run_F ts p s1 f hrepF hndA.of_append_right (by omega)
    rw [hrun2]
    refine ⟨s2, rfl, ?_, sameAux_trans haux1 haux2, ?_⟩
    · intro j
      rw [hrem2 j]
      by_cases hj2 : j ∈ idsF ts
      · rw [if_pos hj2, if_pos (by simp [idsF, hj2]),
            hrem1 j, if_neg (fun hjT => hdisj hjT hj2)]
      · rw [if_neg hj2, hrem1 j]
        by_cases hj1 : j ∈ idsT t
        · rw [if_pos hj1, if_pos (by simp [idsF, hj1])]
        · rw [if_neg hj1, if_neg (by simp [idsF, hj1, hj2])]
    · rw [hlog2, hlog1]
      simp [idsF, List.append_assoc]
end

mutual
theorem ids_desc_T (t : Tree) : ∀ a d, (a, d) ∈ descPairsT t →
    [a, d].Sublist (idsT t) :=
  match t with
  | .node i cs => by
    intro a d hp
    rcases (by simpa [descPairsT, List.mem_append, List.mem_map, Prod.ext_iff]
        using hp : (∃ x ∈ idsF cs, i = a ∧ x = d) ∨ (a, d) ∈ descPairsF cs) with
      ⟨x, hx, ha, hd⟩ | hp'
    · subst ha
      subst hd
      show [i, x].Sublist (i :: idsF cs)
      exact List.cons_sublist_cons.mpr (List.singleton_sublist.mpr hx)
    · have h := ids_desc_F cs a d hp'
      show [a, d].Sublist (i :: idsF cs)
      exact h.trans (List.sublist_cons_self i (idsF cs))
theorem ids_desc_F (cs : List Tree) : ∀ a d, (a, d) ∈ descPairsF cs →
    [a, d].Sublist (idsF cs) :=
  match cs with
  | [] => by intro a d hp; simp [descPairsF] at hp
  | t :: ts => by
    intro a d hp
    rcases (by simpa [descPairsF, List.mem_append] using hp :
        (a, d) ∈ descPairsT t ∨ (a, d) ∈ descPairsF ts) with hp' | hp'
    · show [a, d].Sublist (idsT t ++ idsF ts)
      exact (ids_desc_T t a d hp').trans (List.sublist_append_left _ _)
    · show [a, d].Sublist (idsT t ++ idsF ts)
      exact (ids_desc_F ts a d hp').trans (List.sublist_append_right _ _)
end

/-- C9: `update(N, Repaint::Yes, Propagate::Yes)` on a realised finite
acyclic (passive) subtree succeeds; it logs the update-hook invocations in
pre-order (`idsT t`), so every node of the subtree is visited exactly once
(count 1 in the log delta) and each ancestor's hook fires before any of its
descendants'; it sets the repaint flag of every visited node (the repaint
marking of a node happens before its children are visited, as the log order
shows), children being visited in child-list order with the same flags; and
it leaves every node outside the subtree untouched. -/
theorem c9_update_visits_preorder (t : Tree) (p : Nat) (s : Globals) (fuel : Nat)
    (hrep : repT s p t = true) (hnd : (idsT t).Nodup) (hf : fuelT t ≤ fuel) :
    ∃ s', step fuel (.updateOp t.rootId .yes .yes) s = some s' ∧
      s'.log = s.log ++ (idsT t).map Event.upd ∧
      (∀ j ∈ idsT t, ((idsT t).map Event.upd).count (Event.upd j) = 1) ∧
      (∀ a d, (a, d) ∈ descPairsT t →
        [Event.upd a, Event.upd d].Sublist ((idsT t).map Event.upd)) ∧
      (∀ j ∈ idsT t, alookup j s'.map = (alookup j s.map).map setFlag) ∧
      (∀ j, j ∉ idsT t → alookup j s'.map = alookup j s.map) := by
  obtain ⟨s', hrun, hrem, haux, hlog⟩ := upd_run_T t p s fuel hrep hnd hf
  have hinj : Function.Injective Event.upd := fun a b h => by injection h
  refine ⟨s', hrun, hlog, ?_, ?_, ?_, ?_⟩
  · intro j hj
    rw [List.count_map_of_injective (idsT t) Event.upd hinj j]
    exact List.count_eq_one_of_mem hnd hj
  · intro a d hp
    exact (ids_desc_T t a d hp).map Event.upd
  · intro j hj
    rw [hrem j, if_pos hj]
  · intro j hj
    rw [hrem j, if_neg hj]

/-- C9 witness: the theorem applied to `treeTwo` in `twoNodeArena`. -/
theorem c9_witness :
    repT twoNodeArena 0 treeTwo = true ∧ (idsT treeTwo).Nodup ∧ fuelT treeTwo ≤ 40 ∧
    (∃ s', step 40 (.updateOp treeTwo.rootId .yes .yes) twoNodeArena = some s' ∧
      s'.log = twoNodeArena.log ++ (idsT treeTwo).map Event.upd ∧
      (∀ j ∈ idsT treeTwo, ((idsT treeTwo).map Event.upd).count (Event.upd j) = 1) ∧
      (∀ a d, (a, d) ∈ descPairsT treeTwo →
        [Event.upd a, Event.upd d].Sublist ((idsT treeTwo).map Event.upd)) ∧
      (∀ j ∈ idsT treeTwo, alookup j s'.map = (alookup j twoNodeArena.map).map setFlag) ∧
      (∀ j, j ∉ idsT treeTwo → alookup j s'.map = alookup j twoNodeArena.map)) :=
  ⟨by decide, by decide, by decide,
   c9_update_visits_preorder treeTwo 0 twoNodeArena 40 (by decide) (by decide) (by decide)⟩

/-! ## C3 (amended): `child` preserves the no-dangling-children invariant -/

/-- Every reference in every node's children list refers to an existing
node. -/
def childrenLiveB (s : Globals) : Bool :=
  s.map.all (fun q => q.2.children.all (is_valid s))

/-- Every arena key is below the `next_component_id` counter (true of every
state reachable through the public API, since ids are allocated from the
monotone counter). -/
def idsBounded (s : Globals) : Bool :=
  s.map.all (fun q => decide (q.1 < s.next_component_id))

theorem alookup_mem (k : Nat) (v : α) (m : List (Nat × α)) (h : alookup k m = some v) :
    (k, v) ∈ m := by
  induction m with
  | nil => simp [alookup] at h
  | cons p rest ih =>
    by_cases hk : p.1 = k
    · rcases p with ⟨k', v'⟩
      simp only [alookup] at h
      rw [if_pos hk] at h
      obtain rfl : v' = v := by injection h
      subst hk
      simp
    · simp only [alookup, hk] at h
      simp [ih h]

theorem mem_aset_weak {q : Nat × α} {k : Nat} {v : α} {m : List (Nat × α)}
    (h : q ∈ aset k v m) : q = (k, v) ∨ q ∈ m := by
  induction m with
  | nil => simpa [aset] using h
  | cons p rest ih =>
    by_cases hk : p.1 = k
    · rcases (by simpa [aset, hk] using h : q = (k, v) ∨ q ∈ rest) with h1 | h1
      · exact Or.inl h1
      · exact Or.inr (by simp [h1])
    · rcases (by simpa [aset, hk] using h : q = p ∨ q ∈ aset k v rest) with h1 | h1
      · exact Or.inr (by simp [h1])
      · rcases ih h1 with h2 | h2
        · exact Or.inl h2
        · exact Or.inr (by simp [h2])

theorem isSome_aset_mono (k c : Nat) (v : α) (m : List (Nat × α))
    (h : (alookup c m).isSome = true) :
    (alookup c (aset k v m)).isSome = true := by
  by_cases hck : c = k
  · subst hck
    rw [alookup_aset_self]
    rfl
  · rw [alookup_aset_of_ne k c v m hck]
    exact h

theorem step_childOp_none (f pcref ty : Nat) (fc uh uph : Cmd) (s : Globals)
    (h : alookup pcref s.map = none) :
    step (f + 1) (.childOp pcref ty fc uh uph) s = none := by
  simp only [step, h]

theorem step_childOp_some (f pcref ty : Nat) (fc uh uph : Cmd) (s : Globals) (pn : Node)
    (h : alookup pcref s.map = some pn) :
    step (f + 1) (.childOp pcref ty fc uh uph) s =
      (step f (.cmd fc)
        { s with next_component_id := s.next_component_id + 1,
                 map := aset s.next_component_id
                   ({ parent := pcref, children := [], taken := true, listeners := [],
                      ty := ty, unmountHook := uh, updateHook := uph,
                      repaintFlag := false } : Node)
                   (aset pcref ({ pn with children := pn.children ++ [s.next_component_id] })
                     s.map) }).bind
        (fun s3 => match alookup s.next_component_id s3.map with
          | none => none
          | some n3 =>
            if n3.ty = ty then
              some { s3 with map := aset s.next_component_id ({ n3 with taken := false }) s3.map }
            else none) := by
  simp only [step, h]

/-- C3 (amended): the `child` operation (with an inert factory) preserves
the invariant that every reference in every node's `children` list refers
to an existing node, and keeps every arena key below `next_component_id`.
The counterexample theorem shows the unmount variants do not preserve it:
they leave the unmounted node's reference dangling in its former parent's
children list. -/
theorem c3_child_preserves_children_live (s : Globals) (pcref ty : Nat) (uh uph : Cmd)
    (fuel : Nat) (s' : Globals)
    (hb : idsBounded s = true) (hl : childrenLiveB s = true)
    (hrun : step fuel (.childOp pcref ty .nop uh uph) s = some s') :
    childrenLiveB s' = true ∧ idsBounded s' = true := by
  match fuel with
  | 0 => simp [step] at hrun
  | f + 1 =>
    cases hp : alookup pcref s.map with
    | none =>
      rw [step_childOp_none f pcref ty .nop uh uph s hp] at hrun
      exact absurd hrun (by simp)
    | some pn =>
      rw [step_childOp_some f pcref ty .nop uh uph s pn hp] at hrun
      match f with
      | 0 => simp [step] at hrun
      | g + 1 =>
        rw [step_nop, Option.some_bind, alookup_aset_self] at hrun
        simp only [if_pos rfl] at hrun
        obtain rfl : _ = s' := Option.some.inj hrun
        constructor
        · refine List.all_eq_true.mpr (fun q hq => ?_)
          have hvalid : ∀ c : Nat, is_valid s c = true →
              (alookup c (aset s.next_component_id
                ({ parent := pcref, children := [], taken := false, listeners := [],
                   ty := ty, unmountHook := uh, updateHook := uph,
                   repaintFlag := false } : Node)
                (aset s.next_component_id
                  ({ parent := pcref, children := [], taken := true, listeners := [],
                     ty := ty, unmountHook := uh, updateHook := uph,
                     repaintFlag := false } : Node)
                  (aset pcref ({ pn with children := pn.children ++ [s.next_component_id] })
                    s.map)))).isSome = true := by
            intro c hc
            exact isSome_aset_mono _ _ _ _ (isSome_aset_mono _ _ _ _
              (isSome_aset_mono _ _ _ _ hc))
          have hcref : (alookup s.next_component_id (aset s.next_component_id
              ({ parent := pcref, children := [], taken := false, listeners := [],
                 ty := ty, unmountHook := uh, updateHook := uph,
                 repaintFlag := false } : Node)
              (aset s.next_component_id
                ({ parent := pcref, children := [], taken := true, listeners := [],
                   ty := ty, unmountHook := uh, updateHook := uph,
                   repaintFlag := false } : Node)
                (aset pcref ({ pn with children := pn.children ++ [s.next_component_id] })
                  s.map)))).isSome = true := by
            rw [alookup_aset_self]
            rfl
          rcases mem_aset_weak hq with hq1 | hq1
          · subst hq1
            simp
          rcases mem_aset_weak hq1 with hq2 | hq2
          · subst hq2
            simp
          rcases mem_aset_weak hq2 with hq3 | hq3
          · subst hq3
            refine List.all_eq_true.mpr (fun c hc => ?_)
            rcases (by simpa using hc : c ∈ pn.children ∨ c = s.next_component_id) with
              hc1 | hc1
            · have hpnmem := alookup_mem pcref pn s.map hp
              have hln := List.all_eq_true.mp (List.all_eq_true.mp hl (pcref, pn) hpnmem) c hc1
              exact hvalid c hln
            · subst hc1
              exact hcref
          · refine List.all_eq_true.mpr (fun c hc => ?_)
            have hln := List.all_eq_true.mp (List.all_eq_true.mp hl q hq3) c hc
            exact hvalid c hln
        · refine List.all_eq_true.mpr (fun q hq => ?_)
          have hnext : ∀ j : Nat, j < s.next_component_id → j < s.next_component_id + 1 :=
            fun j hj => by omega
          rcases mem_aset_weak hq with hq1 | hq1
          · subst hq1
            simp
          rcases mem_aset_weak hq1 with hq2 | hq2
          · subst hq2
            simp
          rcases mem_aset_weak hq2 with hq3 | hq3
          · subst hq3
            have := List.all_eq_true.mp hb (pcref, pn) (alookup_mem pcref pn s.map hp)
            simp only [decide_eq_true_eq] at this ⊢
            omega
          · have := List.all_eq_true.mp hb q hq3
            simp only [decide_eq_true_eq] at this ⊢
            omega

/-- The arena obtained by `child::<T5>(0)` on `twoNodeArena` (new node `2`
appended to node `0`'s children). -/
def childResultArena : Globals :=
  { map := [(0, passiveNode 0 [1, 2]), (1, passiveNode 0 []),
            (2, { parent := 0, children := [], taken := false, listeners := [],
                  ty := 5, unmountHook := .nop, updateHook := .nop,
                  repaintFlag := false })],
    signal_map := [], listener_removal := [],
    next_component_id := 3, next_signal_id := 0, lateAcc := [], log := [] }

/-- C3 witness: the amended theorem applied to a concrete `child` call on
`twoNodeArena`. -/
theorem c3_witness :
    idsBounded twoNodeArena = true ∧ childrenLiveB twoNodeArena = true ∧
    step 10 (.childOp 0 5 .nop .nop .nop) twoNodeArena = some childResultArena ∧
    (childrenLiveB childResultArena = true ∧ idsBounded childResultArena = true) :=
  ⟨by decide, by decide, by decide,
   c3_child_preserves_children_live twoNodeArena 0 5 .nop .nop 10 childResultArena
     (by decide) (by decide) (by decide)⟩

end Vx
